import Mathlib

/-!
# Thompson automata builder: regular-expression matching

A shallow embedding of `src/main.cpp` and `src/sample.h`:

* `RegExp`, `Word` — the syntax tree and the words of `sample.h`;
* `Transition`, `NFA` — the automaton of `main.cpp`;
* `buildNFA` (Thompson's construction), `epsClosure`, `epsilonRemover`,
  `simulateNFA`, `wordsMatch` — the functions of `main.cpp`.

Modelling conventions.

* `size_t` state identifiers are natural numbers.  The builder only ever adds
  `1` or `2` to a counter, twice per syntax-tree node at most, so identifiers
  wrap around only for a tree with more than `2^62` nodes, which no address
  space holds.
* `uint8_t` symbols are `Fin 256`; the `int` label of a transition is an `Int`,
  `-1` standing for epsilon.
* `std::unordered_map<size_t, std::vector<Transition>>` is an association list
  searched from the front; `operator[]` on a missing key adds the key with an
  empty vector.  `std::unordered_set<size_t>` is a duplicate-free list;
  `std::set<size_t>` is an ascending duplicate-free list.
* The two `while` loops (`epsClosure`, `simulateNFA`) take an iteration budget
  and answer `none` when it is used up; the budget handed to them is shown to
  be enough (`epsClosureLoop_budget`, `simulateLoop_budget`).
-/

namespace Thompson

/-! ## Data model -/

/-- A word of `sample.h`: `std::vector<uint8_t>`. -/
abbrev Word := List (Fin 256)

/-- The syntax tree of `sample.h`: the variant `regexp::RegExp` together with the
six node structures, fields named as in the source. -/
inductive RegExp where
  | Alternation (m_left m_right : RegExp)
  | Concatenation (m_left m_right : RegExp)
  | Iteration (m_node : RegExp)
  | Symbol (m_symbol : Fin 256)
  | Epsilon
  | Empty
  deriving DecidableEq, Repr

/-- The structure `Transition` of `main.cpp`; `symbol = -1` is epsilon.  The source's
field `to` is `to_` here, `to` being a reserved word. -/
structure Transition where
  to_ : Nat
  symbol : Int
  deriving DecidableEq, Repr

/-- The transition table `std::unordered_map<size_t, std::vector<Transition>>`. -/
abbrev TransMap := List (Nat × List Transition)

/-- The structure `NFA` of `main.cpp`. -/
structure NFA where
  start : Nat
  finishes : List Nat
  transitions : TransMap
  deriving DecidableEq, Repr

/-! ## Container operations -/

/-- The lookup `m.find(key)`: the vector stored under `key`, if the key is present. -/
def mapFind : TransMap → Nat → Option (List Transition)
  | [], _ => none
  | (k, v) :: rest, key => if k = key then some v else mapFind rest key

/-- The statement `m[key].insert(m[key].end(), vec.begin(), vec.end())`: the vector
`vec` is appended to the vector under `key`, which `operator[]` creates empty when
the key is missing. -/
def mapAppend : TransMap → Nat → List Transition → TransMap
  | [], key, vec => [(key, vec)]
  | (k, v) :: rest, key, vec =>
    if k = key then (k, v ++ vec) :: rest else (k, v) :: mapAppend rest key vec

/-- The statement `m[key].push_back(tr)`. -/
def mapPushBack (m : TransMap) (key : Nat) (tr : Transition) : TransMap :=
  mapAppend m key [tr]

/-- The loop `for (const auto& [key, vector] : src) dst[key].insert(dst[key].end(), ...)`
of the three composite builders. -/
def mergeTransitions (dst src : TransMap) : TransMap :=
  src.foldl (fun acc kv => mapAppend acc kv.1 kv.2) dst

/-- The call `s.insert(x)` on a `std::unordered_set<size_t>`. -/
def setInsert (s : List Nat) (x : Nat) : List Nat :=
  if x ∈ s then s else s ++ [x]

/-- The expression `*(s).begin()` on a `std::unordered_set<size_t>`.  The builder
evaluates it on one-element sets only (`buildNFA_finishes`), where it is the
element. -/
def setBegin (s : List Nat) : Nat :=
  s.headD 0

/-- The call `s.insert(x)` on a `std::set<size_t>`, which keeps its elements in
ascending order. -/
def ordInsert (s : List Nat) (x : Nat) : List Nat :=
  if x ∈ s then s else List.orderedInsert (fun a b => a ≤ b) x s

/-! ## Thompson's construction -/

/-- The function `buildEpsilon` of `main.cpp`. -/
def buildEpsilon (currStateNum : Nat) : NFA :=
  let start := currStateNum + 1
  let finishes := setInsert [] (currStateNum + 2)
  { start := start
    finishes := finishes
    transitions := mapPushBack [] start ⟨setBegin finishes, -1⟩ }

/-- The function `buildSymbol` of `main.cpp`. -/
def buildSymbol (currStateNum : Nat) (symbol : Int) : NFA :=
  let start := currStateNum + 1
  let finishes := setInsert [] (currStateNum + 2)
  { start := start
    finishes := finishes
    transitions := mapPushBack [] start ⟨setBegin finishes, symbol⟩ }

/-- The function `buildEmpty` of `main.cpp`. -/
def buildEmpty (currStateNum : Nat) : NFA :=
  { start := currStateNum + 1
    finishes := setInsert [] (currStateNum + 2)
    transitions := [] }

/-- The function `buildAlternation` of `main.cpp`. -/
def buildAlternation (currStateNum : Nat) (left right : NFA) : NFA :=
  let start := currStateNum + 1
  let finishes := setInsert [] (currStateNum + 2)
  let t0 := mergeTransitions left.transitions right.transitions
  let t1 := mapPushBack t0 start ⟨left.start, -1⟩
  let t2 := mapPushBack t1 start ⟨right.start, -1⟩
  let t3 := mapPushBack t2 (setBegin left.finishes) ⟨setBegin finishes, -1⟩
  let t4 := mapPushBack t3 (setBegin right.finishes) ⟨setBegin finishes, -1⟩
  { start := start, finishes := finishes, transitions := t4 }

/-- The function `buildConcatenation` of `main.cpp`. -/
def buildConcatenation (left right : NFA) : NFA :=
  let t0 := mergeTransitions left.transitions right.transitions
  { start := left.start
    finishes := setInsert [] (setBegin right.finishes)
    transitions := mapPushBack t0 (setBegin left.finishes) ⟨right.start, -1⟩ }

/-- The function `buildIteration` of `main.cpp`. -/
def buildIteration (currStateNum : Nat) (node : NFA) : NFA :=
  let start := currStateNum + 1
  let finishes := setInsert [] (currStateNum + 2)
  let t0 := mergeTransitions [] node.transitions
  let t1 := mapPushBack t0 start ⟨node.start, -1⟩
  let t2 := mapPushBack t1 (setBegin node.finishes) ⟨setBegin finishes, -1⟩
  let t3 := mapPushBack t2 start ⟨setBegin finishes, -1⟩
  let t4 := mapPushBack t3 (setBegin node.finishes) ⟨node.start, -1⟩
  { start := start, finishes := finishes, transitions := t4 }

/-- The function `buildNFA` of `main.cpp`.  The variant is closed, so the final
`throw` is never reached. -/
def buildNFA : RegExp → Nat → NFA
  | .Symbol m_symbol, currStateNum => buildSymbol currStateNum (m_symbol.val : Int)
  | .Epsilon, currStateNum => buildEpsilon currStateNum
  | .Empty, currStateNum => buildEmpty currStateNum
  | .Alternation m_left m_right, currStateNum =>
    let left := buildNFA m_left currStateNum
    let right := buildNFA m_right (setBegin left.finishes)
    buildAlternation (setBegin right.finishes) left right
  | .Concatenation m_left m_right, currStateNum =>
    let left := buildNFA m_left currStateNum
    let right := buildNFA m_right (setBegin left.finishes)
    buildConcatenation left right
  | .Iteration m_node, currStateNum =>
    let node := buildNFA m_node currStateNum
    buildIteration (setBegin node.finishes) node

/-! ## Epsilon closure and epsilon removal -/

/-- The body of the `for` loop of `epsClosure`: an epsilon transition to a state
not yet in `result` adds the state to `result` and to the back of the queue. -/
def epsClosureVisit (qr : List Nat × List Nat) (tr : Transition) : List Nat × List Nat :=
  if tr.symbol = -1 ∧ tr.to_ ∉ qr.2 then (qr.1 ++ [tr.to_], ordInsert qr.2 tr.to_) else qr

/-- The `while(!q.empty())` loop of `epsClosure`, run for at most the given number
of iterations; the queue's front is the head of the list. -/
def epsClosureLoop (nfa : NFA) : Nat → List Nat → List Nat → Option (List Nat)
  | 0, _, _ => none
  | _ + 1, [], result => some result
  | fuel + 1, state :: q, result =>
    match mapFind nfa.transitions state with
    | none => epsClosureLoop nfa fuel q result
    | some trs =>
      let qr := trs.foldl epsClosureVisit (q, result)
      epsClosureLoop nfa fuel qr.1 qr.2

/-- The number of transitions stored in a table. -/
def transCount (m : TransMap) : Nat :=
  (m.map fun kv => kv.2.length).sum

/-- An iteration budget that the loop of `epsClosure` never uses up. -/
def epsClosureFuel (nfa : NFA) : Nat :=
  transCount nfa.transitions + 2

/-- The run of `epsClosure` from its initial queue and result set. -/
def epsClosureRun (nfa : NFA) (start : Nat) : Option (List Nat) :=
  epsClosureLoop nfa (epsClosureFuel nfa) [start] (ordInsert [] start)

/-- The function `epsClosure` of `main.cpp`. -/
def epsClosure (nfa : NFA) (start : Nat) : List Nat :=
  (epsClosureRun nfa start).getD []

/-- The assignment `epsClosures[state] = closure` on the
`std::unordered_map<size_t, std::set<size_t>>` of `epsilonRemover`. -/
def closAssign : List (Nat × List Nat) → Nat → List Nat → List (Nat × List Nat)
  | [], key, c => [(key, c)]
  | (k, v) :: rest, key, c =>
    if k = key then (k, c) :: rest else (k, v) :: closAssign rest key c

/-- The innermost loop of `epsilonRemover`: the symbol transitions of a closure
member are copied to `state`. -/
def copySymbolTransitions (state : Nat) (result : NFA) (trs : List Transition) : NFA :=
  trs.foldl (fun result tr =>
    if tr.symbol ≠ -1 then
      { result with transitions := mapPushBack result.transitions state ⟨tr.to_, tr.symbol⟩ }
    else result) result

/-- The body of the loop `for(const auto c : closure)` of `epsilonRemover`. -/
def hoistMember (nfa : NFA) (state : Nat) (result : NFA) (c : Nat) : NFA :=
  let result := match mapFind nfa.transitions c with
    | some trs => copySymbolTransitions state result trs
    | none => result
  if c ∈ nfa.finishes then { result with finishes := setInsert result.finishes state }
  else result

/-- The first loop of `epsilonRemover`: the closure of every key of the table. -/
def epsClosures (nfa : NFA) : List (Nat × List Nat) :=
  nfa.transitions.foldl (fun acc kv => closAssign acc kv.1 (epsClosure nfa kv.1)) []

/-- The second loop of `epsilonRemover`, over the pairs (state, closure). -/
def hoistClosures (nfa : NFA) (closures : List (Nat × List Nat)) (result : NFA) : NFA :=
  closures.foldl (fun result sc => sc.2.foldl (hoistMember nfa sc.1) result) result

/-- The third loop of `epsilonRemover`: the accept states of the source automaton
are accept states of the result. -/
def keepFinishes (nfa : NFA) (result : NFA) : NFA :=
  nfa.finishes.foldl (fun result finish =>
    if finish ∉ result.finishes then
      { result with finishes := setInsert result.finishes finish }
    else result) result

/-- The function `epsilonRemover` of `main.cpp`. -/
def epsilonRemover (nfa : NFA) : NFA :=
  let result : NFA := { start := nfa.start, finishes := [], transitions := [] }
  keepFinishes nfa (hoistClosures nfa (epsClosures nfa) result)

/-! ## Simulation -/

/-- The body of the `for` loop of `simulateNFA`: an epsilon transition pushes its
target at the same index, a symbol transition pushes its target at the next index
when the symbol at `index` is its label.  The top of the stack is the head. -/
def pushTransition (word : Word) (index : Nat) (s : List (Nat × Nat)) (tr : Transition) :
    List (Nat × Nat) :=
  if tr.symbol = -1 then (tr.to_, index) :: s
  else if h : index < word.length then
    if tr.symbol = ((word[index]).val : Int) then (tr.to_, index + 1) :: s else s
  else s

/-- The `while(!s.empty())` loop of `simulateNFA`, run for at most the given number
of iterations.  The set `visited` is only asked for membership, so it is kept as a
plain list. -/
def simulateLoop (nfa : NFA) (word : Word) :
    Nat → List (Nat × Nat) → List (Nat × Nat) → Option Bool
  | 0, _, _ => none
  | _ + 1, [], _ => some false
  | fuel + 1, (state, index) :: s, visited =>
    if state ∈ nfa.finishes ∧ index = word.length then some true
    else if (state, index) ∈ visited then simulateLoop nfa word fuel s visited
    else
      match mapFind nfa.transitions state with
      | none => simulateLoop nfa word fuel s ((state, index) :: visited)
      | some trs =>
        simulateLoop nfa word fuel (trs.foldl (pushTransition word index) s)
          ((state, index) :: visited)

/-- An iteration budget that the loop of `simulateNFA` never uses up. -/
def simulateFuel (nfa : NFA) (word : Word) : Nat :=
  (word.length + 1) * nfa.transitions.length * transCount nfa.transitions + 2

/-- The run of `simulateNFA` from its initial stack and empty visited set. -/
def simulateRun (nfa : NFA) (word : Word) : Option Bool :=
  simulateLoop nfa word (simulateFuel nfa word) [(nfa.start, 0)] []

/-- The function `simulateNFA` of `main.cpp`. -/
def simulateNFA (nfa : NFA) (word : Word) : Bool :=
  (simulateRun nfa word).getD false

/-- The function `wordsMatch` of `main.cpp`; the result is a `std::set<size_t>`. -/
def wordsMatch (regexp : RegExp) (words : List Word) : List Nat :=
  let thompson := buildNFA regexp 0
  let nfa := epsilonRemover thompson
  (List.range words.length).foldl (fun result i =>
    if simulateNFA nfa (words.getD i []) then ordInsert result i else result) []

/-! ## Semantics and proof-side definitions -/

/-- The transition `tr` is stored under the key `q` of the table `m`. -/
def Edge (m : TransMap) (q : Nat) (tr : Transition) : Prop :=
  ∃ trs, mapFind m q = some trs ∧ tr ∈ trs

/-- One move of an automaton on a word, between configurations (state, position):
an epsilon transition keeps the position; a transition labelled with a symbol moves
from position `i` to `i + 1`, only when `i < word.length` and the label is the
symbol at position `i`. -/
inductive Step (nfa : NFA) (word : Word) : Nat × Nat → Nat × Nat → Prop
  | eps (q i t : Nat) : Edge nfa.transitions q ⟨t, -1⟩ → Step nfa word (q, i) (t, i)
  | sym (q i t : Nat) (h : i < word.length) :
      Edge nfa.transitions q ⟨t, ((word[i]).val : Int)⟩ → Step nfa word (q, i) (t, i + 1)

/-- An accepting configuration: an accept state at the end of the word. -/
def Accepting (nfa : NFA) (word : Word) (c : Nat × Nat) : Prop :=
  c.1 ∈ nfa.finishes ∧ c.2 = word.length

/-- Some finite sequence of moves leads from (start, 0) to an accepting configuration. -/
def Accepts (nfa : NFA) (word : Word) : Prop :=
  ∃ q, q ∈ nfa.finishes ∧
    Relation.ReflTransGen (Step nfa word) (nfa.start, 0) (q, word.length)

/-- What one transition pushes when the configuration `(q, index)` is expanded. -/
def Pushes (word : Word) (index : Nat) (tr : Transition) (c : Nat × Nat) : Prop :=
  (tr.symbol = -1 ∧ c = (tr.to_, index)) ∨
    ∃ h : index < word.length, tr.symbol = ((word[index]).val : Int) ∧ c = (tr.to_, index + 1)

/-- The invariant of the loop of `simulateNFA`: every move out of a visited
configuration leads to a configuration on the stack or visited, and no visited
configuration is accepting. -/
def SimInv (nfa : NFA) (word : Word) (s visited : List (Nat × Nat)) : Prop :=
  (∀ v, v ∈ visited → ∀ c, Step nfa word v c → c ∈ s ∨ c ∈ visited) ∧
    ∀ v, v ∈ visited → ¬ Accepting nfa word v

/-- The configurations that own transitions: a key of the table at a position of
the word. -/
def simUniverse (nfa : NFA) (word : Word) : Finset (Nat × Nat) :=
  (nfa.transitions.map Prod.fst).toFinset ×ˢ Finset.range (word.length + 1)

/-- One epsilon move: the table holds an epsilon transition from `q` to `t`. -/
def EpsStep (m : TransMap) (q t : Nat) : Prop :=
  Edge m q ⟨t, -1⟩

/-- The state `t` is `q` or is reached from `q` along epsilon transitions only. -/
def EpsReach (m : TransMap) (q t : Nat) : Prop :=
  Relation.ReflTransGen (EpsStep m) q t

/-- The invariant of the loop of `epsClosure`, for the closure of `start`. -/
def ClosInv (m : TransMap) (start : Nat) (q result : List Nat) : Prop :=
  start ∈ result ∧ (∀ x, x ∈ result → EpsReach m start x) ∧ (∀ x, x ∈ q → x ∈ result) ∧
    ∀ x, x ∈ result → x ∈ q ∨ ∀ t, EpsStep m x t → t ∈ result

/-- The targets of all transitions of a table. -/
def targetList : TransMap → List Nat
  | [] => []
  | (_, v) :: rest => v.map Transition.to_ ++ targetList rest

/-- From the configuration `x` the automaton `epsilonRemover nfa` reaches one of its
accepting configurations. -/
def RemoverGood (nfa : NFA) (word : Word) (x : Nat × Nat) : Prop :=
  ∃ f, f ∈ (epsilonRemover nfa).finishes ∧
    Relation.ReflTransGen (Step (epsilonRemover nfa) word) x (f, word.length)

/-- The automaton with table `m` moves from state `q` to state `r` reading the
word `w`: epsilon transitions read nothing, a transition labelled with a symbol
reads that symbol. -/
inductive Run (m : TransMap) (r : Nat) : Nat → Word → Prop
  | done : Run m r r []
  | eps (q t : Nat) (w : Word) : Edge m q ⟨t, -1⟩ → Run m r t w → Run m r q w
  | sym (q t : Nat) (c : Fin 256) (w : Word) :
      Edge m q ⟨t, (c.val : Int)⟩ → Run m r t w → Run m r q (c :: w)

/-- A well-formed fragment above the counter `n` with exit `e`: one accept state
`e`, every state identifier in the range `n + 1 .. e`, no key stored twice. -/
def FragOK (F : NFA) (n e : Nat) : Prop :=
  F.finishes = [e] ∧ n < F.start ∧ F.start ≤ e ∧
    (∀ q tr, Edge F.transitions q tr → n < q ∧ q ≤ e ∧ n < tr.to_ ∧ tr.to_ ≤ e) ∧
    (F.transitions.map Prod.fst).Nodup

/-- The standard denotational semantics of regular expressions: `Empty` has no
word, `Epsilon` the empty word, `Symbol c` the word `[c]`; alternation is union,
concatenation is concatenation of languages, iteration is the Kleene star. -/
def lang : RegExp → Language (Fin 256)
  | .Empty => 0
  | .Epsilon => 1
  | .Symbol m_symbol => {[m_symbol]}
  | .Alternation m_left m_right => lang m_left + lang m_right
  | .Concatenation m_left m_right => lang m_left * lang m_right
  | .Iteration m_node => KStar.kstar (lang m_node)

/-- The keys of a table lie in the range `n + 1 .. e`. -/
def KeysIn (m : TransMap) (n e : Nat) : Prop :=
  ∀ k, k ∈ m.map Prod.fst → n < k ∧ k ≤ e

/-- The state identifiers that occur in an automaton: its start state, its accept
states, the keys of its table and the targets of its stored transitions. -/
def stateIds (F : NFA) : List Nat :=
  F.start :: (F.finishes ++ (F.transitions.map Prod.fst ++ targetList F.transitions))

/-- The symbols at the `Symbol` leaves of an expression. -/
def symbols : RegExp → List (Fin 256)
  | .Symbol m_symbol => [m_symbol]
  | .Epsilon => []
  | .Empty => []
  | .Alternation m_left m_right => symbols m_left ++ symbols m_right
  | .Concatenation m_left m_right => symbols m_left ++ symbols m_right
  | .Iteration m_node => symbols m_node

/-- The loop of `simulateNFA` with a log added to its state: besides the answer it
returns the configurations that were expanded, latest first.  A configuration is
expanded when it is inserted into `visited` and the loop goes on to push its
outgoing transitions. -/
def simulateLoopLog (nfa : NFA) (word : Word) :
    Nat → List (Nat × Nat) → List (Nat × Nat) → List (Nat × Nat) →
      Option Bool × List (Nat × Nat)
  | 0, _, _, log => (none, log)
  | _ + 1, [], _, log => (some false, log)
  | fuel + 1, (state, index) :: s, visited, log =>
    if state ∈ nfa.finishes ∧ index = word.length then (some true, log)
    else if (state, index) ∈ visited then simulateLoopLog nfa word fuel s visited log
    else
      match mapFind nfa.transitions state with
      | none =>
        simulateLoopLog nfa word fuel s ((state, index) :: visited) ((state, index) :: log)
      | some trs =>
        simulateLoopLog nfa word fuel (trs.foldl (pushTransition word index) s)
          ((state, index) :: visited) ((state, index) :: log)

/-- The expression `re1` of basic test 1 of `main`: `((a+b)* a b (a+b)*)*`. -/
def re1 : RegExp :=
  .Iteration
    (.Concatenation
      (.Concatenation
        (.Concatenation
          (.Iteration (.Alternation (.Symbol 97) (.Symbol 98)))
          (.Symbol 97))
        (.Symbol 98))
      (.Iteration (.Alternation (.Symbol 97) (.Symbol 98))))

/-- The expression of scenario 2 of the specification, `(a+b)* a b (a+b)*`: the
expression under the outer `Iteration` of `re1`. -/
def scenario2 : RegExp :=
  .Concatenation
    (.Concatenation
      (.Concatenation
        (.Iteration (.Alternation (.Symbol 97) (.Symbol 98)))
        (.Symbol 97))
      (.Symbol 98))
    (.Iteration (.Alternation (.Symbol 97) (.Symbol 98)))

/-- The eight words of the batch query of basic test 1 of `main`. -/
def words1 : List Word :=
  [[], [97, 98], [97], [97, 97, 97, 97], [97, 97, 97, 99], [97, 97, 7, 99], [97, 97, 98],
    [97, 97, 98, 97, 97, 98, 97, 97, 98, 97, 97, 98, 97, 97, 98, 97, 97, 98]]

/-- The expression `re2` of basic test 2 of `main`:
`((a+b)* (c+d)* (e+f)*)* #0 (a+b)*`. -/
def re2 : RegExp :=
  .Concatenation
    (.Concatenation
      (.Iteration
        (.Concatenation
          (.Concatenation
            (.Iteration (.Alternation (.Symbol 97) (.Symbol 98)))
            (.Iteration (.Alternation (.Symbol 99) (.Symbol 100))))
          (.Iteration (.Alternation (.Symbol 101) (.Symbol 102)))))
      .Empty)
    (.Iteration (.Alternation (.Symbol 97) (.Symbol 98)))

/-- The five words of the batch query of basic test 2 of `main`. -/
def words2 : List Word :=
  [[], [97, 98], [97, 98, 99, 100], [97, 98, 99, 100, 101, 102],
    [97, 98, 99, 100, 101, 102, 97, 98]]

/-- The expression `re3` of basic test 3 of `main`:
`0 1 1 ((0 1 1) + (1 0* 1) + 0)*`, on the byte codes 48 and 49 of `'0'` and `'1'`. -/
def re3 : RegExp :=
  .Concatenation
    (.Concatenation
      (.Concatenation (.Symbol 48) (.Symbol 49))
      (.Symbol 49))
    (.Iteration
      (.Alternation
        (.Alternation
          (.Concatenation
            (.Concatenation (.Symbol 48) (.Symbol 49))
            (.Symbol 49))
          (.Concatenation
            (.Concatenation (.Symbol 49) (.Iteration (.Symbol 48)))
            (.Symbol 49)))
        (.Symbol 48)))

/-- The six words of the batch query of basic test 3 of `main`. -/
def words3 : List Word :=
  [[48, 49], [48, 49, 49], [48, 49, 49, 48], [48, 49, 49, 48, 49, 49, 49, 48, 48, 48],
    [48, 49, 49, 48, 49, 49, 49, 48, 48, 49], [48, 49, 49, 48, 49, 49, 49, 48, 48, 49, 48]]

/-! ## Path semantics -/

theorem mem_pushTransition (word : Word) (index : Nat) (s : List (Nat × Nat))
    (tr : Transition) (c : Nat × Nat) :
    c ∈ pushTransition word index s tr ↔ c ∈ s ∨ Pushes word index tr c := by
  unfold pushTransition Pushes
  by_cases h1 : tr.symbol = -1
  · have h3 : ¬ ∃ h : index < word.length, tr.symbol = ((word[index]).val : Int) ∧
        c = (tr.to_, index + 1) := by
      rintro ⟨h, h2, -⟩
      omega
    simp only [h1, if_true, List.mem_cons, true_and]
    constructor
    · rintro (h | h)
      · exact Or.inr (Or.inl h)
      · exact Or.inl h
    · rintro (h | h | h)
      · exact Or.inr h
      · exact Or.inl h
      · exact absurd (h1 ▸ h) h3
  · simp only [h1, if_false, false_and, false_or]
    by_cases h2 : index < word.length
    · simp only [h2, dite_true, exists_true_left]
      by_cases h3 : tr.symbol = ((word[index]).val : Int)
      · simp only [h3, if_true, List.mem_cons, true_and]
        tauto
      · simp only [h3, if_false, false_and, or_false]
    · simp only [h2, dite_false]
      constructor
      · exact Or.inl
      · rintro (h | ⟨h, -⟩)
        · exact h
        · exact h.elim

theorem mem_foldl_pushTransition (word : Word) (index : Nat) (trs : List Transition)
    (s : List (Nat × Nat)) (c : Nat × Nat) :
    c ∈ trs.foldl (pushTransition word index) s ↔
      c ∈ s ∨ ∃ tr, tr ∈ trs ∧ Pushes word index tr c := by
  induction trs generalizing s with
  | nil => simp
  | cons tr trs ih =>
    rw [List.foldl_cons, ih, mem_pushTransition]
    constructor
    · rintro ((h | h) | ⟨tr2, h, h2⟩)
      · exact Or.inl h
      · exact Or.inr ⟨tr, List.mem_cons_self _ _, h⟩
      · exact Or.inr ⟨tr2, List.mem_cons_of_mem _ h, h2⟩
    · rintro (h | ⟨tr2, h, h2⟩)
      · exact Or.inl (Or.inl h)
      · rcases List.mem_cons.1 h with rfl | h
        · exact Or.inl (Or.inr h2)
        · exact Or.inr ⟨tr2, h, h2⟩

theorem step_iff (nfa : NFA) (word : Word) (q i : Nat) (c : Nat × Nat) :
    Step nfa word (q, i) c ↔ ∃ tr, Edge nfa.transitions q tr ∧ Pushes word i tr c := by
  constructor
  · intro h
    cases h with
    | eps _ _ t he => exact ⟨⟨t, -1⟩, he, Or.inl ⟨rfl, rfl⟩⟩
    | sym _ _ t h he => exact ⟨⟨t, _⟩, he, Or.inr ⟨h, rfl, rfl⟩⟩
  · rintro ⟨⟨t, a⟩, he, (⟨h1, rfl⟩ | ⟨h, h1, rfl⟩)⟩
    · simp only at h1
      subst h1
      exact Step.eps q i t he
    · simp only at h1
      subst h1
      exact Step.sym q i t h he

/-! ## The simulator decides path existence -/

theorem simulateLoop_true (nfa : NFA) (word : Word) :
    ∀ (fuel : Nat) (s visited : List (Nat × Nat)),
      simulateLoop nfa word fuel s visited = some true →
      ∃ c0, c0 ∈ s ∧ ∃ c, Relation.ReflTransGen (Step nfa word) c0 c ∧ Accepting nfa word c := by
  intro fuel
  induction fuel with
  | zero => intro s visited h; simp [simulateLoop] at h
  | succ fuel ih =>
    intro s visited h
    match s with
    | [] => simp [simulateLoop] at h
    | (state, index) :: s =>
      rw [simulateLoop] at h
      split_ifs at h with h1 h2
      · exact ⟨(state, index), List.mem_cons_self _ _, (state, index),
          Relation.ReflTransGen.refl, h1⟩
      · obtain ⟨c0, hc0, hc⟩ := ih s visited h
        exact ⟨c0, List.mem_cons_of_mem _ hc0, hc⟩
      · split at h
        · obtain ⟨c0, hc0, hc⟩ := ih _ _ h
          exact ⟨c0, List.mem_cons_of_mem _ hc0, hc⟩
        · rename_i trs hfind
          obtain ⟨c0, hc0, c, hc, hacc⟩ := ih _ _ h
          rcases (mem_foldl_pushTransition word index trs s c0).1 hc0 with hc0 | ⟨tr, htr, hp⟩
          · exact ⟨c0, List.mem_cons_of_mem _ hc0, c, hc, hacc⟩
          · refine ⟨(state, index), List.mem_cons_self _ _, c, ?_, hacc⟩
            exact Relation.ReflTransGen.head
              ((step_iff nfa word state index c0).2 ⟨tr, ⟨trs, hfind, htr⟩, hp⟩) hc

theorem simulateLoop_false (nfa : NFA) (word : Word) :
    ∀ (fuel : Nat) (s visited : List (Nat × Nat)),
      simulateLoop nfa word fuel s visited = some false → SimInv nfa word s visited →
      ∀ c0, c0 ∈ s ∨ c0 ∈ visited →
        ∀ c, Relation.ReflTransGen (Step nfa word) c0 c → ¬ Accepting nfa word c := by
  intro fuel
  induction fuel with
  | zero => intro s visited h; simp [simulateLoop] at h
  | succ fuel ih =>
    intro s visited h hinv
    match s with
    | [] =>
      intro c0 hc0 c hc
      have hv : c0 ∈ visited := by
        rcases hc0 with h0 | h0
        · exact absurd h0 (List.not_mem_nil _)
        · exact h0
      have hcv : c ∈ visited := by
        induction hc with
        | refl => exact hv
        | tail _ hstep ih2 =>
          rcases hinv.1 _ ih2 _ hstep with h0 | h0
          · exact absurd h0 (List.not_mem_nil _)
          · exact h0
      exact hinv.2 c hcv
    | (state, index) :: s =>
      rw [simulateLoop] at h
      split_ifs at h with h1 h2
      · cases h
      · have hinv2 : SimInv nfa word s visited := by
          refine ⟨fun v hv c hstep => ?_, hinv.2⟩
          rcases hinv.1 v hv c hstep with h0 | h0
          · rcases List.mem_cons.1 h0 with rfl | h0
            · exact Or.inr h2
            · exact Or.inl h0
          · exact Or.inr h0
        intro c0 hc0
        refine ih s visited h hinv2 c0 ?_
        rcases hc0 with h0 | h0
        · rcases List.mem_cons.1 h0 with rfl | h0
          · exact Or.inr h2
          · exact Or.inl h0
        · exact Or.inr h0
      · have key : ∀ s2 : List (Nat × Nat),
            (∀ c, c ∈ s → c ∈ s2) →
            (∀ c, Step nfa word (state, index) c → c ∈ s2) →
            simulateLoop nfa word fuel s2 ((state, index) :: visited) = some false →
            ∀ c0, c0 ∈ (state, index) :: s ∨ c0 ∈ visited →
              ∀ c, Relation.ReflTransGen (Step nfa word) c0 c → ¬ Accepting nfa word c := by
          intro s2 hsub hstep h3 c0 hc0
          have hinv2 : SimInv nfa word s2 ((state, index) :: visited) := by
            constructor
            · intro v hv c hs
              rcases List.mem_cons.1 hv with rfl | hv
              · exact Or.inl (hstep c hs)
              · rcases hinv.1 v hv c hs with h0 | h0
                · rcases List.mem_cons.1 h0 with rfl | h0
                  · exact Or.inr (List.mem_cons_self _ _)
                  · exact Or.inl (hsub c h0)
                · exact Or.inr (List.mem_cons_of_mem _ h0)
            · intro v hv
              rcases List.mem_cons.1 hv with rfl | hv
              · exact h1
              · exact hinv.2 v hv
          refine ih s2 _ h3 hinv2 c0 ?_
          rcases hc0 with h0 | h0
          · rcases List.mem_cons.1 h0 with rfl | h0
            · exact Or.inr (List.mem_cons_self _ _)
            · exact Or.inl (hsub c0 h0)
          · exact Or.inr (List.mem_cons_of_mem _ h0)
        split at h
        · rename_i hfind
          refine key s (fun c hc => hc) ?_ h
          intro c hs
          obtain ⟨tr, ⟨trs, hf, -⟩, -⟩ := (step_iff nfa word state index c).1 hs
          rw [hfind] at hf
          exact absurd hf (by simp)
        · rename_i trs hfind
          refine key _ (fun c hc => (mem_foldl_pushTransition word index trs s c).2 (Or.inl hc))
            ?_ h
          intro c hs
          obtain ⟨tr, ⟨trs2, hf, htr⟩, hp⟩ := (step_iff nfa word state index c).1 hs
          rw [hfind] at hf
          cases hf
          exact (mem_foldl_pushTransition word index trs s c).2 (Or.inr ⟨tr, htr, hp⟩)

/-- Whatever the loop of `simulateNFA` answers from the initial stack is right. -/
theorem simulateLoop_sound (nfa : NFA) (word : Word) (fuel : Nat) (b : Bool)
    (h : simulateLoop nfa word fuel [(nfa.start, 0)] [] = some b) :
    b = true ↔ Accepts nfa word := by
  cases b with
  | true =>
    refine ⟨fun _ => ?_, fun _ => rfl⟩
    obtain ⟨c0, hc0, ⟨q, j⟩, hc, hq, hj⟩ := simulateLoop_true nfa word fuel _ _ h
    rw [List.mem_singleton] at hc0
    subst hc0
    simp only at hj
    subst hj
    exact ⟨q, hq, hc⟩
  | false =>
    refine ⟨fun h0 => (by cases h0), ?_⟩
    rintro ⟨q, hq, hc⟩
    have hinv : SimInv nfa word [(nfa.start, 0)] [] :=
      ⟨fun v hv => absurd hv (List.not_mem_nil _), fun v hv => absurd hv (List.not_mem_nil _)⟩
    exact absurd ⟨hq, rfl⟩
      (simulateLoop_false nfa word fuel _ _ h hinv (nfa.start, 0)
        (Or.inl (List.mem_singleton.2 rfl)) (q, word.length) hc)

/-! ## The simulator's loop ends within its budget -/

theorem mapFind_mem_keys (m : TransMap) (q : Nat) (trs : List Transition)
    (h : mapFind m q = some trs) : q ∈ m.map Prod.fst := by
  induction m with
  | nil => simp [mapFind] at h
  | cons kv m ih =>
    obtain ⟨k, v⟩ := kv
    rw [mapFind] at h
    split_ifs at h with hk
    · simp [hk]
    · exact List.mem_cons_of_mem _ (ih h)

theorem mapFind_length_le (m : TransMap) (q : Nat) (trs : List Transition)
    (h : mapFind m q = some trs) : trs.length ≤ transCount m := by
  induction m with
  | nil => simp [mapFind] at h
  | cons kv m ih =>
    obtain ⟨k, v⟩ := kv
    rw [mapFind] at h
    simp only [transCount, List.map_cons, List.sum_cons]
    split_ifs at h with hk
    · cases h
      omega
    · have := ih h
      simp only [transCount] at this
      omega

theorem length_foldl_pushTransition (word : Word) (index : Nat) (trs : List Transition)
    (s : List (Nat × Nat)) :
    (trs.foldl (pushTransition word index) s).length ≤ s.length + trs.length := by
  induction trs generalizing s with
  | nil => simp
  | cons tr trs ih =>
    rw [List.foldl_cons]
    refine le_trans (ih _) ?_
    have : (pushTransition word index s tr).length ≤ s.length + 1 := by
      unfold pushTransition
      split_ifs <;> simp
    simp only [List.length_cons]
    omega

theorem simUniverse_card_le (nfa : NFA) (word : Word) :
    (simUniverse nfa word).card ≤ nfa.transitions.length * (word.length + 1) := by
  unfold simUniverse
  rw [Finset.card_product, Finset.card_range]
  refine Nat.mul_le_mul_right _ ?_
  exact le_trans (List.toFinset_card_le _) (by simp)

theorem simulateLoop_isSome (nfa : NFA) (word : Word) :
    ∀ (fuel : Nat) (s visited : List (Nat × Nat)),
      (∀ c, c ∈ s → c.2 ≤ word.length) →
      s.length + transCount nfa.transitions *
        (simUniverse nfa word \ visited.toFinset).card < fuel →
      ∃ b, simulateLoop nfa word fuel s visited = some b := by
  intro fuel
  induction fuel with
  | zero => intro s visited _ h; omega
  | succ fuel ih =>
    intro s visited hidx hlt
    match s with
    | [] => exact ⟨false, by simp [simulateLoop]⟩
    | (state, index) :: s =>
      have hidx2 : ∀ c, c ∈ s → c.2 ≤ word.length :=
        fun c hc => hidx c (List.mem_cons_of_mem _ hc)
      have hindex : index ≤ word.length := hidx (state, index) (List.mem_cons_self _ _)
      have hmono : (simUniverse nfa word \ ((state, index) :: visited).toFinset).card ≤
          (simUniverse nfa word \ visited.toFinset).card := by
        apply Finset.card_le_card
        intro x hx
        simp only [Finset.mem_sdiff, List.mem_toFinset, List.mem_cons, not_or] at hx ⊢
        exact ⟨hx.1, hx.2.2⟩
      simp only [List.length_cons] at hlt
      rw [simulateLoop]
      split_ifs with h1 h2
      · exact ⟨true, rfl⟩
      · exact ih s visited hidx2 (by omega)
      · split
        · refine ih s _ hidx2 ?_
          have := Nat.mul_le_mul_left (transCount nfa.transitions) hmono
          omega
        · rename_i trs hfind
          have hmem : (state, index) ∈ simUniverse nfa word \ visited.toFinset := by
            simp only [simUniverse, Finset.mem_sdiff, Finset.mem_product, List.mem_toFinset,
              Finset.mem_range]
            exact ⟨⟨mapFind_mem_keys _ _ _ hfind, by omega⟩, h2⟩
          have hcard : (simUniverse nfa word \ ((state, index) :: visited).toFinset).card + 1 ≤
              (simUniverse nfa word \ visited.toFinset).card := by
            have hss : simUniverse nfa word \ ((state, index) :: visited).toFinset ⊆
                (simUniverse nfa word \ visited.toFinset).erase (state, index) := by
              intro x hx
              simp only [Finset.mem_sdiff, List.mem_toFinset, List.mem_cons, not_or,
                Finset.mem_erase] at hx ⊢
              exact ⟨hx.2.1, hx.1, hx.2.2⟩
            have h3 := Finset.card_le_card hss
            rw [Finset.card_erase_of_mem hmem] at h3
            have h4 : 0 < (simUniverse nfa word \ visited.toFinset).card :=
              Finset.card_pos.2 ⟨_, hmem⟩
            omega
          refine ih _ _ ?_ ?_
          · intro c hc
            rcases (mem_foldl_pushTransition word index trs s c).1 hc with hc | ⟨tr, -, hp⟩
            · exact hidx2 c hc
            · rcases hp with ⟨-, rfl⟩ | ⟨h, -, rfl⟩
              · exact hindex
              · exact h
          · have h5 := length_foldl_pushTransition word index trs s
            have h6 := mapFind_length_le _ _ _ hfind
            have h7 := Nat.mul_le_mul_left (transCount nfa.transitions) hcard
            rw [Nat.mul_add, Nat.mul_one] at h7
            omega

/-- The loop of `simulateNFA` ends within the budget `simulateFuel`. -/
theorem simulateLoop_budget (nfa : NFA) (word : Word) :
    ∃ b, simulateRun nfa word = some b := by
  unfold simulateRun
  refine simulateLoop_isSome nfa word _ _ _ ?_ ?_
  · intro c hc
    rw [List.mem_singleton] at hc
    subst hc
    exact Nat.zero_le _
  · have h1 := simUniverse_card_le nfa word
    have h2 : (simUniverse nfa word \ ([] : List (Nat × Nat)).toFinset).card ≤
        nfa.transitions.length * (word.length + 1) := by
      simpa using h1
    have h3 := Nat.mul_le_mul_left (transCount nfa.transitions) h2
    unfold simulateFuel
    simp only [List.length_singleton]
    have h4 : transCount nfa.transitions * (nfa.transitions.length * (word.length + 1)) =
        (word.length + 1) * nfa.transitions.length * transCount nfa.transitions := by ring
    omega

/-- The run of `simulateNFA` ends, and with the answer `simulateNFA`. -/
theorem simulateRun_eq (nfa : NFA) (word : Word) :
    simulateRun nfa word = some (simulateNFA nfa word) := by
  obtain ⟨b, hb⟩ := simulateLoop_budget nfa word
  simp [simulateNFA, hb]

/-- The function `simulateNFA` answers `true` exactly on the accepted words. -/
theorem simulateNFA_iff (nfa : NFA) (word : Word) :
    simulateNFA nfa word = true ↔ Accepts nfa word :=
  simulateLoop_sound nfa word _ _ (simulateRun_eq nfa word)

/-! ## Epsilon closure -/

theorem mem_ordInsert (s : List Nat) (x y : Nat) : y ∈ ordInsert s x ↔ y = x ∨ y ∈ s := by
  unfold ordInsert
  split_ifs with h
  · constructor
    · exact Or.inr
    · rintro (rfl | h2)
      · exact h
      · exact h2
  · rw [List.mem_orderedInsert]

theorem epsClosureVisit_result (qr : List Nat × List Nat) (tr : Transition) (x : Nat) :
    x ∈ (epsClosureVisit qr tr).2 ↔ x ∈ qr.2 ∨ (tr.symbol = -1 ∧ tr.to_ = x) := by
  unfold epsClosureVisit
  split_ifs with h
  · simp only [mem_ordInsert]
    constructor
    · rintro (rfl | h2)
      · exact Or.inr ⟨h.1, rfl⟩
      · exact Or.inl h2
    · rintro (h2 | ⟨-, rfl⟩)
      · exact Or.inr h2
      · exact Or.inl rfl
  · constructor
    · exact Or.inl
    · rintro (h2 | ⟨h3, rfl⟩)
      · exact h2
      · by_contra h4
        exact h ⟨h3, h4⟩

theorem epsClosureVisit_queue (qr : List Nat × List Nat) (tr : Transition) (x : Nat) :
    x ∈ (epsClosureVisit qr tr).1 ↔
      x ∈ qr.1 ∨ (tr.symbol = -1 ∧ tr.to_ = x ∧ x ∉ qr.2) := by
  unfold epsClosureVisit
  split_ifs with h
  · simp only [List.mem_append, List.mem_singleton]
    constructor
    · rintro (h2 | rfl)
      · exact Or.inl h2
      · exact Or.inr ⟨h.1, rfl, h.2⟩
    · rintro (h2 | ⟨-, rfl, -⟩)
      · exact Or.inl h2
      · exact Or.inr rfl
  · constructor
    · exact Or.inl
    · rintro (h2 | ⟨h3, rfl, h4⟩)
      · exact h2
      · exact absurd ⟨h3, h4⟩ h

theorem foldl_epsClosureVisit_result (trs : List Transition) (qr : List Nat × List Nat)
    (x : Nat) :
    x ∈ (trs.foldl epsClosureVisit qr).2 ↔
      x ∈ qr.2 ∨ ∃ tr, tr ∈ trs ∧ tr.symbol = -1 ∧ tr.to_ = x := by
  induction trs generalizing qr with
  | nil => simp
  | cons tr trs ih =>
    rw [List.foldl_cons, ih, epsClosureVisit_result]
    constructor
    · rintro ((h | h) | ⟨tr2, h, h2⟩)
      · exact Or.inl h
      · exact Or.inr ⟨tr, List.mem_cons_self _ _, h⟩
      · exact Or.inr ⟨tr2, List.mem_cons_of_mem _ h, h2⟩
    · rintro (h | ⟨tr2, h, h2⟩)
      · exact Or.inl (Or.inl h)
      · rcases List.mem_cons.1 h with rfl | h
        · exact Or.inl (Or.inr h2)
        · exact Or.inr ⟨tr2, h, h2⟩

theorem foldl_epsClosureVisit_queue (trs : List Transition) (qr : List Nat × List Nat)
    (x : Nat) :
    x ∈ (trs.foldl epsClosureVisit qr).1 ↔
      x ∈ qr.1 ∨ (x ∈ (trs.foldl epsClosureVisit qr).2 ∧ x ∉ qr.2) := by
  induction trs generalizing qr with
  | nil => simp
  | cons tr trs ih =>
    rw [List.foldl_cons, ih, epsClosureVisit_queue]
    have hr := foldl_epsClosureVisit_result trs (epsClosureVisit qr tr) x
    have hv := epsClosureVisit_result qr tr x
    constructor
    · rintro ((h | ⟨h1, h2, h3⟩) | ⟨h1, h2⟩)
      · exact Or.inl h
      · exact Or.inr ⟨hr.2 (Or.inl (hv.2 (Or.inr ⟨h1, h2⟩))), h3⟩
      · exact Or.inr ⟨h1, fun h3 => h2 (hv.2 (Or.inl h3))⟩
    · rintro (h | ⟨h1, h2⟩)
      · exact Or.inl (Or.inl h)
      · by_cases h3 : x ∈ (epsClosureVisit qr tr).2
        · rcases hv.1 h3 with h4 | ⟨h4, h5⟩
          · exact absurd h4 h2
          · exact Or.inl (Or.inr ⟨h4, h5, h2⟩)
        · exact Or.inr ⟨h1, h3⟩

theorem epsClosureLoop_sound (nfa : NFA) (start : Nat) :
    ∀ (fuel : Nat) (q result out : List Nat),
      epsClosureLoop nfa fuel q result = some out →
      ClosInv nfa.transitions start q result →
      ∀ x, x ∈ out ↔ EpsReach nfa.transitions start x := by
  intro fuel
  induction fuel with
  | zero => intro q result out h; simp [epsClosureLoop] at h
  | succ fuel ih =>
    intro q result out h hinv
    obtain ⟨h1, h2, h3, h4⟩ := hinv
    match q with
    | [] =>
      simp only [epsClosureLoop, Option.some.injEq] at h
      subst h
      intro x
      refine ⟨h2 x, fun hx => ?_⟩
      induction hx with
      | refl => exact h1
      | tail _ hstep ih2 =>
        rcases h4 _ ih2 with h5 | h5
        · exact absurd h5 (List.not_mem_nil _)
        · exact h5 _ hstep
    | state :: q =>
      rw [epsClosureLoop] at h
      split at h
      · rename_i hfind
        refine ih q result out h ⟨h1, h2, fun x hx => h3 x (List.mem_cons_of_mem _ hx), ?_⟩
        intro x hx
        rcases h4 x hx with h5 | h5
        · rcases List.mem_cons.1 h5 with rfl | h5
          · right
            rintro t ⟨trs, hf, -⟩
            rw [hfind] at hf
            cases hf
          · exact Or.inl h5
        · exact Or.inr h5
      · rename_i trs hfind
        have hr := foldl_epsClosureVisit_result trs (q, result)
        have hq := foldl_epsClosureVisit_queue trs (q, result)
        have hstate : state ∈ result := h3 state (List.mem_cons_self _ _)
        refine ih _ _ out h ⟨(hr start).2 (Or.inl h1), ?_, ?_, ?_⟩
        · intro x hx
          rcases (hr x).1 hx with h5 | ⟨tr, htr, hs, rfl⟩
          · exact h2 x h5
          · refine Relation.ReflTransGen.tail (h2 state hstate) ⟨trs, hfind, ?_⟩
            obtain ⟨t, a⟩ := tr
            simp only at hs
            subst hs
            exact htr
        · intro x hx
          rcases (hq x).1 hx with h5 | ⟨h5, -⟩
          · exact (hr x).2 (Or.inl (h3 x (List.mem_cons_of_mem _ h5)))
          · exact h5
        · intro x hx
          by_cases hxr : x ∈ result
          · rcases h4 x hxr with h5 | h5
            · rcases List.mem_cons.1 h5 with rfl | h5
              · right
                rintro t ⟨trs2, hf, ht⟩
                rw [hfind] at hf
                cases hf
                exact (hr t).2 (Or.inr ⟨_, ht, rfl, rfl⟩)
              · exact Or.inl ((hq x).2 (Or.inl h5))
            · exact Or.inr fun t ht => (hr t).2 (Or.inl (h5 t ht))
          · exact Or.inl ((hq x).2 (Or.inr ⟨hx, hxr⟩))

/-! ## The loop of `epsClosure` ends within its budget -/

theorem targetList_length (m : TransMap) : (targetList m).length = transCount m := by
  induction m with
  | nil => rfl
  | cons kv m ih =>
    obtain ⟨k, v⟩ := kv
    simp only [targetList, transCount, List.length_append, List.length_map, List.map_cons,
      List.sum_cons]
    simp only [transCount] at ih
    omega

theorem mapFind_mem_targetList (m : TransMap) (q : Nat) (trs : List Transition)
    (tr : Transition) (h : mapFind m q = some trs) (htr : tr ∈ trs) :
    tr.to_ ∈ targetList m := by
  induction m with
  | nil => simp [mapFind] at h
  | cons kv m ih =>
    obtain ⟨k, v⟩ := kv
    rw [mapFind] at h
    simp only [targetList, List.mem_append, List.mem_map]
    split_ifs at h with hk
    · cases h
      exact Or.inl ⟨tr, htr, rfl⟩
    · exact Or.inr (ih h)

theorem epsClosureVisit_measure (T : Finset Nat) (qr : List Nat × List Nat) (tr : Transition)
    (h : tr.to_ ∈ T) :
    (epsClosureVisit qr tr).1.length + (T \ (epsClosureVisit qr tr).2.toFinset).card ≤
      qr.1.length + (T \ qr.2.toFinset).card := by
  unfold epsClosureVisit
  split_ifs with hc
  · have hmem : tr.to_ ∈ T \ qr.2.toFinset := by
      simp only [Finset.mem_sdiff, List.mem_toFinset]
      exact ⟨h, hc.2⟩
    have hss : T \ (ordInsert qr.2 tr.to_).toFinset ⊆ (T \ qr.2.toFinset).erase tr.to_ := by
      intro x hx
      simp only [Finset.mem_sdiff, List.mem_toFinset, mem_ordInsert, not_or,
        Finset.mem_erase] at hx ⊢
      exact ⟨hx.2.1, hx.1, hx.2.2⟩
    have h3 := Finset.card_le_card hss
    rw [Finset.card_erase_of_mem hmem] at h3
    have h4 : 0 < (T \ qr.2.toFinset).card := Finset.card_pos.2 ⟨_, hmem⟩
    simp only [List.length_append, List.length_singleton]
    omega
  · exact le_refl _

theorem foldl_epsClosureVisit_measure (T : Finset Nat) (trs : List Transition)
    (qr : List Nat × List Nat) (h : ∀ tr, tr ∈ trs → tr.to_ ∈ T) :
    (trs.foldl epsClosureVisit qr).1.length +
        (T \ (trs.foldl epsClosureVisit qr).2.toFinset).card ≤
      qr.1.length + (T \ qr.2.toFinset).card := by
  induction trs generalizing qr with
  | nil => exact le_refl _
  | cons tr trs ih =>
    rw [List.foldl_cons]
    exact le_trans (ih _ fun t ht => h t (List.mem_cons_of_mem _ ht))
      (epsClosureVisit_measure T qr tr (h tr (List.mem_cons_self _ _)))

theorem epsClosureLoop_isSome (nfa : NFA) :
    ∀ (fuel : Nat) (q result : List Nat),
      q.length + ((targetList nfa.transitions).toFinset \ result.toFinset).card < fuel →
      ∃ out, epsClosureLoop nfa fuel q result = some out := by
  intro fuel
  induction fuel with
  | zero => intro q result h; omega
  | succ fuel ih =>
    intro q result hlt
    match q with
    | [] => exact ⟨result, by simp [epsClosureLoop]⟩
    | state :: q =>
      simp only [List.length_cons] at hlt
      rw [epsClosureLoop]
      split
      · exact ih q result (by omega)
      · rename_i trs hfind
        refine ih _ _ ?_
        have := foldl_epsClosureVisit_measure (targetList nfa.transitions).toFinset trs
          (q, result) fun tr htr =>
            List.mem_toFinset.2 (mapFind_mem_targetList _ _ _ _ hfind htr)
        simp only at this
        omega

/-- The loop of `epsClosure` ends within the budget `epsClosureFuel`. -/
theorem epsClosureLoop_budget (nfa : NFA) (start : Nat) :
    ∃ out, epsClosureRun nfa start = some out := by
  unfold epsClosureRun
  refine epsClosureLoop_isSome nfa _ _ _ ?_
  have h1 : ((targetList nfa.transitions).toFinset \ (ordInsert [] start).toFinset).card ≤
      transCount nfa.transitions := by
    refine le_trans (Finset.card_le_card Finset.sdiff_subset) ?_
    rw [← targetList_length]
    exact List.toFinset_card_le _
  unfold epsClosureFuel
  simp only [List.length_singleton]
  omega

/-- The run of `epsClosure` ends, and with the answer `epsClosure`. -/
theorem epsClosureRun_eq (nfa : NFA) (start : Nat) :
    epsClosureRun nfa start = some (epsClosure nfa start) := by
  obtain ⟨out, h⟩ := epsClosureLoop_budget nfa start
  simp [epsClosure, h]

/-- The function `epsClosure` returns exactly the states reached from `start` along
epsilon transitions only, `start` among them. -/
theorem mem_epsClosure (nfa : NFA) (start x : Nat) :
    x ∈ epsClosure nfa start ↔ EpsReach nfa.transitions start x := by
  refine epsClosureLoop_sound nfa start _ _ _ _ (epsClosureRun_eq nfa start) ?_ x
  have hs : start ∈ ordInsert [] start := (mem_ordInsert [] start start).2 (Or.inl rfl)
  refine ⟨hs, ?_, ?_, ?_⟩
  · intro y hy
    rcases (mem_ordInsert [] start y).1 hy with rfl | hy
    · exact Relation.ReflTransGen.refl
    · exact absurd hy (List.not_mem_nil _)
  · intro y hy
    rw [List.mem_singleton] at hy
    subst hy
    exact hs
  · intro y hy
    rcases (mem_ordInsert [] start y).1 hy with rfl | hy
    · exact Or.inl (List.mem_singleton.2 rfl)
    · exact absurd hy (List.not_mem_nil _)

/-! ## Transition tables as edge relations -/

theorem mapFind_mapAppend (m : TransMap) (k : Nat) (v : List Transition) (q : Nat) :
    mapFind (mapAppend m k v) q =
      if q = k then some ((mapFind m k).getD [] ++ v) else mapFind m q := by
  induction m with
  | nil =>
    simp only [mapAppend, mapFind, Option.getD_none, List.nil_append]
    by_cases h : q = k
    · simp [h]
    · have h2 : ¬ k = q := fun h3 => h h3.symm
      simp [h, h2]
  | cons kv m ih =>
    obtain ⟨k2, v2⟩ := kv
    by_cases hk : k2 = k
    · subst hk
      simp only [mapAppend, mapFind, if_true, Option.getD_some]
      by_cases h : q = k2
      · simp [h]
      · have h2 : ¬ k2 = q := fun h3 => h h3.symm
        simp [h, h2]
    · simp only [mapAppend, mapFind, hk, if_false, ih]
      by_cases h : q = k
      · subst h
        simp [hk]
      · simp [h]

theorem edge_mapAppend (m : TransMap) (k : Nat) (v : List Transition) (q : Nat)
    (tr : Transition) :
    Edge (mapAppend m k v) q tr ↔ Edge m q tr ∨ (q = k ∧ tr ∈ v) := by
  unfold Edge
  rw [mapFind_mapAppend]
  by_cases h : q = k
  · subst h
    simp only [if_true, Option.some.injEq, true_and]
    constructor
    · rintro ⟨trs, rfl, h2⟩
      rcases List.mem_append.1 h2 with h3 | h3
      · left
        cases hf : mapFind m q with
        | none => rw [hf] at h3; simp at h3
        | some t => rw [hf] at h3; exact ⟨t, rfl, h3⟩
      · exact Or.inr h3
    · rintro (⟨trs, hf, h2⟩ | h2)
      · exact ⟨_, rfl, List.mem_append.2 (Or.inl (by rw [hf]; exact h2))⟩
      · exact ⟨_, rfl, List.mem_append.2 (Or.inr h2)⟩
  · simp [h]

theorem edge_mapPushBack (m : TransMap) (k : Nat) (t : Transition) (q : Nat)
    (tr : Transition) :
    Edge (mapPushBack m k t) q tr ↔ Edge m q tr ∨ (q = k ∧ tr = t) := by
  unfold mapPushBack
  rw [edge_mapAppend, List.mem_singleton]

theorem edge_nil (q : Nat) (tr : Transition) : ¬ Edge [] q tr := by
  rintro ⟨trs, h, -⟩
  simp [mapFind] at h

theorem mem_setInsert (s : List Nat) (x y : Nat) : y ∈ setInsert s x ↔ y ∈ s ∨ y = x := by
  unfold setInsert
  split_ifs with h
  · constructor
    · exact Or.inl
    · rintro (h2 | rfl)
      · exact h2
      · exact h
  · simp

/-- A fold whose step adds, to a relation read off the accumulator, what the
element contributes, computes the union of the contributions. -/
theorem foldl_union {α β γ : Type} (P : β → γ → Prop) (G : α → γ → Prop) (f : β → α → β)
    (hf : ∀ r a x, P (f r a) x ↔ P r x ∨ G a x) (l : List α) (r : β) (x : γ) :
    P (l.foldl f r) x ↔ P r x ∨ ∃ a, a ∈ l ∧ G a x := by
  induction l generalizing r with
  | nil => simp
  | cons a l ih =>
    rw [List.foldl_cons, ih, hf]
    constructor
    · rintro ((h | h) | ⟨b, hb, h⟩)
      · exact Or.inl h
      · exact Or.inr ⟨a, List.mem_cons_self _ _, h⟩
      · exact Or.inr ⟨b, List.mem_cons_of_mem _ hb, h⟩
    · rintro (h | ⟨b, hb, h⟩)
      · exact Or.inl (Or.inl h)
      · rcases List.mem_cons.1 hb with rfl | hb
        · exact Or.inl (Or.inr h)
        · exact Or.inr ⟨b, hb, h⟩

/-- A fold whose step keeps a projection of the accumulator keeps it. -/
theorem foldl_keep {α β γ : Type} (p : β → γ) (f : β → α → β)
    (hf : ∀ r a, p (f r a) = p r) (l : List α) (r : β) : p (l.foldl f r) = p r := by
  induction l generalizing r with
  | nil => rfl
  | cons a l ih => rw [List.foldl_cons, ih, hf]

/-! ## What `epsilonRemover` builds -/

theorem copySymbolTransitions_finishes (state : Nat) (result : NFA) (trs : List Transition) :
    (copySymbolTransitions state result trs).finishes = result.finishes := by
  unfold copySymbolTransitions
  refine foldl_keep NFA.finishes _ ?_ trs result
  intro r a
  split_ifs <;> rfl

theorem copySymbolTransitions_start (state : Nat) (result : NFA) (trs : List Transition) :
    (copySymbolTransitions state result trs).start = result.start := by
  unfold copySymbolTransitions
  refine foldl_keep NFA.start _ ?_ trs result
  intro r a
  split_ifs <;> rfl

theorem copySymbolTransitions_edge (state : Nat) (result : NFA) (trs : List Transition)
    (q : Nat) (tr : Transition) :
    Edge (copySymbolTransitions state result trs).transitions q tr ↔
      Edge result.transitions q tr ∨ (q = state ∧ tr ∈ trs ∧ tr.symbol ≠ -1) := by
  unfold copySymbolTransitions
  have := foldl_union (fun (r : NFA) (x : Nat × Transition) => Edge r.transitions x.1 x.2)
    (fun (a : Transition) (x : Nat × Transition) => x.1 = state ∧ x.2 = a ∧ a.symbol ≠ -1)
    (fun result tr =>
      if tr.symbol ≠ -1 then
        { result with transitions := mapPushBack result.transitions state ⟨tr.to_, tr.symbol⟩ }
      else result) ?_ trs result (q, tr)
  · rw [this]
    constructor
    · rintro (h | ⟨a, ha, h1, h2, h3⟩)
      · exact Or.inl h
      · simp only at h1 h2
        subst h2
        exact Or.inr ⟨h1, ha, h3⟩
    · rintro (h | ⟨h1, h2, h3⟩)
      · exact Or.inl h
      · exact Or.inr ⟨tr, h2, h1, rfl, h3⟩
  · intro r a x
    dsimp only
    split_ifs with h
    · simp only [edge_mapPushBack]
      constructor
      · rintro (h2 | ⟨h2, h3⟩)
        · exact Or.inl h2
        · exact Or.inr ⟨h2, h3, h⟩
      · rintro (h2 | ⟨h2, h3, -⟩)
        · exact Or.inl h2
        · exact Or.inr ⟨h2, h3⟩
    · constructor
      · exact Or.inl
      · rintro (h2 | ⟨-, -, h3⟩)
        · exact h2
        · exact absurd h3 h

theorem hoistMember_start (nfa : NFA) (state : Nat) (result : NFA) (c : Nat) :
    (hoistMember nfa state result c).start = result.start := by
  unfold hoistMember
  split_ifs <;> split <;> simp [copySymbolTransitions_start]

theorem hoistMember_finishes (nfa : NFA) (state : Nat) (result : NFA) (c x : Nat) :
    x ∈ (hoistMember nfa state result c).finishes ↔
      x ∈ result.finishes ∨ (x = state ∧ c ∈ nfa.finishes) := by
  unfold hoistMember
  split_ifs with h <;> split <;>
    simp [copySymbolTransitions_finishes, mem_setInsert, h]

theorem hoistMember_edge (nfa : NFA) (state : Nat) (result : NFA) (c q : Nat)
    (tr : Transition) :
    Edge (hoistMember nfa state result c).transitions q tr ↔
      Edge result.transitions q tr ∨
        (q = state ∧ Edge nfa.transitions c tr ∧ tr.symbol ≠ -1) := by
  have h0 : Edge (hoistMember nfa state result c).transitions q tr ↔
      Edge (match mapFind nfa.transitions c with
        | some trs => copySymbolTransitions state result trs
        | none => result).transitions q tr := by
    unfold hoistMember
    split_ifs <;> rfl
  rw [h0]
  cases hf : mapFind nfa.transitions c with
  | none =>
    simp only
    constructor
    · exact Or.inl
    · rintro (h | ⟨-, ⟨trs, h2, -⟩, -⟩)
      · exact h
      · rw [hf] at h2
        cases h2
  | some trs =>
    simp only [copySymbolTransitions_edge]
    constructor
    · rintro (h | ⟨h1, h2, h3⟩)
      · exact Or.inl h
      · exact Or.inr ⟨h1, ⟨trs, hf, h2⟩, h3⟩
    · rintro (h | ⟨h1, ⟨trs2, h2, h4⟩, h3⟩)
      · exact Or.inl h
      · rw [hf] at h2
        cases h2
        exact Or.inr ⟨h1, h4, h3⟩

theorem mem_closAssign (acc : List (Nat × List Nat)) (k : Nat) (c : List Nat)
    (p : Nat × List Nat) (h : p ∈ closAssign acc k c) : p ∈ acc ∨ p = (k, c) := by
  induction acc with
  | nil =>
    simp only [closAssign, List.mem_singleton] at h
    exact Or.inr h
  | cons kv acc ih =>
    obtain ⟨k2, v2⟩ := kv
    rw [closAssign] at h
    split_ifs at h with hk
    · rcases List.mem_cons.1 h with h | h
      · exact Or.inr (hk ▸ h)
      · exact Or.inl (List.mem_cons_of_mem _ h)
    · rcases List.mem_cons.1 h with h | h
      · exact Or.inl (h ▸ List.mem_cons_self _ _)
      · rcases ih h with h | h
        · exact Or.inl (List.mem_cons_of_mem _ h)
        · exact Or.inr h

theorem closAssign_mem_self (acc : List (Nat × List Nat)) (k : Nat) (c : List Nat) :
    (k, c) ∈ closAssign acc k c := by
  induction acc with
  | nil => simp [closAssign]
  | cons kv acc ih =>
    obtain ⟨k2, v2⟩ := kv
    rw [closAssign]
    split_ifs with hk
    · rw [hk]
      exact List.mem_cons_self _ _
    · exact List.mem_cons_of_mem _ ih

theorem closAssign_mem_of_mem (acc : List (Nat × List Nat)) (k : Nat) (c : List Nat)
    (p : Nat × List Nat) (h : p ∈ acc) (hp : p.1 = k → p.2 = c) :
    p ∈ closAssign acc k c := by
  induction acc with
  | nil => exact absurd h (List.not_mem_nil _)
  | cons kv acc ih =>
    obtain ⟨k2, v2⟩ := kv
    rw [closAssign]
    split_ifs with hk
    · rcases List.mem_cons.1 h with h | h
      · subst h
        simp only at hp hk
        rw [hp hk]
        exact List.mem_cons_self _ _
      · exact List.mem_cons_of_mem _ h
    · rcases List.mem_cons.1 h with h | h
      · exact h ▸ List.mem_cons_self _ _
      · exact List.mem_cons_of_mem _ (ih h)

/-- The first loop of `epsilonRemover` stores, for each key of the table and for
nothing else, the closure of the key. -/
theorem mem_epsClosures (nfa : NFA) (p : Nat × List Nat) :
    p ∈ epsClosures nfa ↔ p.1 ∈ nfa.transitions.map Prod.fst ∧ p.2 = epsClosure nfa p.1 := by
  have hval : ∀ (l : TransMap) (acc : List (Nat × List Nat)),
      (∀ x, x ∈ acc → x.2 = epsClosure nfa x.1) →
      ∀ x, x ∈ l.foldl (fun acc kv => closAssign acc kv.1 (epsClosure nfa kv.1)) acc →
        x.2 = epsClosure nfa x.1 := by
    intro l
    induction l with
    | nil => intro acc h x hx; exact h x hx
    | cons kv l ih =>
      intro acc h x hx
      rw [List.foldl_cons] at hx
      refine ih _ ?_ x hx
      intro y hy
      rcases mem_closAssign _ _ _ _ hy with hy | hy
      · exact h y hy
      · rw [hy]
  have hu := foldl_union
    (fun (acc : List (Nat × List Nat)) (x : Nat × List Nat) =>
      x ∈ acc ∧ x.2 = epsClosure nfa x.1)
    (fun (kv : Nat × List Transition) (x : Nat × List Nat) =>
      x = (kv.1, epsClosure nfa kv.1))
    (fun acc kv => closAssign acc kv.1 (epsClosure nfa kv.1)) ?_ nfa.transitions [] p
  · unfold epsClosures
    constructor
    · intro h
      have hv := hval nfa.transitions [] (fun x hx => absurd hx (List.not_mem_nil _)) p h
      rcases hu.1 ⟨h, hv⟩ with ⟨h1, -⟩ | ⟨kv, hkv, h1⟩
      · exact absurd h1 (List.not_mem_nil _)
      · refine ⟨?_, hv⟩
        rw [h1]
        exact List.mem_map.2 ⟨kv, hkv, rfl⟩
    · rintro ⟨h1, h2⟩
      obtain ⟨kv, hkv, h3⟩ := List.mem_map.1 h1
      refine (hu.2 (Or.inr ⟨kv, hkv, ?_⟩)).1
      rw [h3]
      exact Prod.ext rfl h2
  · intro acc kv x
    dsimp only
    constructor
    · rintro ⟨h1, h2⟩
      rcases mem_closAssign _ _ _ _ h1 with h3 | h3
      · exact Or.inl ⟨h3, h2⟩
      · exact Or.inr h3
    · rintro (⟨h1, h2⟩ | h1)
      · refine ⟨closAssign_mem_of_mem _ _ _ _ h1 ?_, h2⟩
        intro h3
        rw [h2, h3]
      · subst h1
        exact ⟨closAssign_mem_self _ _ _, rfl⟩

theorem hoistClosures_start (nfa : NFA) (cls : List (Nat × List Nat)) (result : NFA) :
    (hoistClosures nfa cls result).start = result.start := by
  unfold hoistClosures
  refine foldl_keep NFA.start _ ?_ cls result
  intro r sc
  exact foldl_keep NFA.start _ (fun r2 c => hoistMember_start nfa sc.1 r2 c) sc.2 r

theorem hoistClosures_edge (nfa : NFA) (cls : List (Nat × List Nat)) (result : NFA)
    (q : Nat) (tr : Transition) :
    Edge (hoistClosures nfa cls result).transitions q tr ↔
      Edge result.transitions q tr ∨
        ∃ sc, sc ∈ cls ∧ q = sc.1 ∧
          ∃ c, c ∈ sc.2 ∧ Edge nfa.transitions c tr ∧ tr.symbol ≠ -1 := by
  unfold hoistClosures
  have hu := foldl_union
    (fun (r : NFA) (x : Nat × Transition) => Edge r.transitions x.1 x.2)
    (fun (sc : Nat × List Nat) (x : Nat × Transition) =>
      x.1 = sc.1 ∧ ∃ c, c ∈ sc.2 ∧ Edge nfa.transitions c x.2 ∧ x.2.symbol ≠ -1)
    (fun result sc => sc.2.foldl (hoistMember nfa sc.1) result) ?_ cls result (q, tr)
  · exact hu
  · intro r sc x
    have hi := foldl_union
      (fun (r : NFA) (x : Nat × Transition) => Edge r.transitions x.1 x.2)
      (fun (c : Nat) (x : Nat × Transition) =>
        x.1 = sc.1 ∧ Edge nfa.transitions c x.2 ∧ x.2.symbol ≠ -1)
      (hoistMember nfa sc.1) (fun r2 c y => hoistMember_edge nfa sc.1 r2 c y.1 y.2) sc.2 r x
    dsimp only at hi ⊢
    rw [hi]
    constructor
    · rintro (h | ⟨c, hc, h1, h2⟩)
      · exact Or.inl h
      · exact Or.inr ⟨h1, c, hc, h2⟩
    · rintro (h | ⟨h1, c, hc, h2⟩)
      · exact Or.inl h
      · exact Or.inr ⟨c, hc, h1, h2⟩

theorem hoistClosures_finishes (nfa : NFA) (cls : List (Nat × List Nat)) (result : NFA)
    (x : Nat) :
    x ∈ (hoistClosures nfa cls result).finishes ↔
      x ∈ result.finishes ∨
        ∃ sc, sc ∈ cls ∧ x = sc.1 ∧ ∃ c, c ∈ sc.2 ∧ c ∈ nfa.finishes := by
  unfold hoistClosures
  have hu := foldl_union
    (fun (r : NFA) (x : Nat) => x ∈ r.finishes)
    (fun (sc : Nat × List Nat) (x : Nat) => x = sc.1 ∧ ∃ c, c ∈ sc.2 ∧ c ∈ nfa.finishes)
    (fun result sc => sc.2.foldl (hoistMember nfa sc.1) result) ?_ cls result x
  · exact hu
  · intro r sc y
    have hi := foldl_union
      (fun (r : NFA) (x : Nat) => x ∈ r.finishes)
      (fun (c : Nat) (x : Nat) => x = sc.1 ∧ c ∈ nfa.finishes)
      (hoistMember nfa sc.1) (fun r2 c z => hoistMember_finishes nfa sc.1 r2 c z) sc.2 r y
    dsimp only at hi ⊢
    rw [hi]
    constructor
    · rintro (h | ⟨c, hc, h1, h2⟩)
      · exact Or.inl h
      · exact Or.inr ⟨h1, c, hc, h2⟩
    · rintro (h | ⟨h1, c, hc, h2⟩)
      · exact Or.inl h
      · exact Or.inr ⟨c, hc, h1, h2⟩

theorem keepFinishes_start (nfa : NFA) (result : NFA) :
    (keepFinishes nfa result).start = result.start := by
  unfold keepFinishes
  refine foldl_keep NFA.start _ ?_ nfa.finishes result
  intro r a
  split_ifs <;> rfl

theorem keepFinishes_transitions (nfa : NFA) (result : NFA) :
    (keepFinishes nfa result).transitions = result.transitions := by
  unfold keepFinishes
  refine foldl_keep NFA.transitions _ ?_ nfa.finishes result
  intro r a
  split_ifs <;> rfl

theorem keepFinishes_finishes (nfa : NFA) (result : NFA) (x : Nat) :
    x ∈ (keepFinishes nfa result).finishes ↔ x ∈ result.finishes ∨ x ∈ nfa.finishes := by
  unfold keepFinishes
  have hu := foldl_union
    (fun (r : NFA) (x : Nat) => x ∈ r.finishes)
    (fun (finish : Nat) (x : Nat) => x = finish)
    (fun result finish =>
      if finish ∉ result.finishes then
        { result with finishes := setInsert result.finishes finish }
      else result) ?_ nfa.finishes result x
  · rw [hu]
    simp
  · intro r a y
    dsimp only
    split_ifs with h
    · constructor
      · exact Or.inl
      · rintro (h2 | rfl)
        · exact h2
        · exact h
    · exact mem_setInsert _ _ _

theorem edge_mem_keys (m : TransMap) (q : Nat) (tr : Transition) (h : Edge m q tr) :
    q ∈ m.map Prod.fst := by
  obtain ⟨trs, hf, -⟩ := h
  exact mapFind_mem_keys m q trs hf

theorem epsReach_keys (m : TransMap) (q c : Nat) (h : EpsReach m q c) :
    c = q ∨ q ∈ m.map Prod.fst := by
  rcases Relation.ReflTransGen.cases_head h with h | ⟨b, hb, -⟩
  · exact Or.inl h.symm
  · exact Or.inr (edge_mem_keys m q _ hb)

theorem epsilonRemover_start (nfa : NFA) : (epsilonRemover nfa).start = nfa.start := by
  unfold epsilonRemover
  rw [keepFinishes_start, hoistClosures_start]

/-- The transitions of `epsilonRemover nfa`: a state owns the symbol transitions of
the states of its epsilon closure. -/
theorem epsilonRemover_edge (nfa : NFA) (q : Nat) (tr : Transition) :
    Edge (epsilonRemover nfa).transitions q tr ↔
      tr.symbol ≠ -1 ∧ ∃ c, EpsReach nfa.transitions q c ∧ Edge nfa.transitions c tr := by
  unfold epsilonRemover
  rw [keepFinishes_transitions, hoistClosures_edge]
  constructor
  · rintro (h | ⟨sc, hsc, h1, c, hc, h2, h3⟩)
    · exact absurd h (edge_nil q tr)
    · obtain ⟨-, h4⟩ := (mem_epsClosures nfa sc).1 hsc
      rw [h4, mem_epsClosure, ← h1] at hc
      exact ⟨h3, c, hc, h2⟩
  · rintro ⟨h3, c, hc, h2⟩
    have hq : q ∈ nfa.transitions.map Prod.fst := by
      rcases epsReach_keys _ _ _ hc with h | h
      · exact h ▸ edge_mem_keys _ _ _ h2
      · exact h
    refine Or.inr ⟨(q, epsClosure nfa q), (mem_epsClosures nfa _).2 ⟨hq, rfl⟩, rfl, c, ?_, h2, h3⟩
    exact (mem_epsClosure nfa q c).2 hc

/-- The accept states of `epsilonRemover nfa`: the states whose epsilon closure
holds an accept state of `nfa`. -/
theorem epsilonRemover_finishes (nfa : NFA) (x : Nat) :
    x ∈ (epsilonRemover nfa).finishes ↔
      ∃ c, c ∈ nfa.finishes ∧ EpsReach nfa.transitions x c := by
  unfold epsilonRemover
  rw [keepFinishes_finishes, hoistClosures_finishes]
  constructor
  · rintro ((h | ⟨sc, hsc, h1, c, hc, h2⟩) | h)
    · exact absurd h (List.not_mem_nil _)
    · obtain ⟨-, h4⟩ := (mem_epsClosures nfa sc).1 hsc
      rw [h4, mem_epsClosure, ← h1] at hc
      exact ⟨c, h2, hc⟩
    · exact ⟨x, h, Relation.ReflTransGen.refl⟩
  · rintro ⟨c, h2, hc⟩
    rcases epsReach_keys _ _ _ hc with h | h
    · exact Or.inr (h ▸ h2)
    · exact Or.inl (Or.inr ⟨(x, epsClosure nfa x), (mem_epsClosures nfa _).2 ⟨h, rfl⟩, rfl, c,
        (mem_epsClosure nfa x c).2 hc, h2⟩)

/-! ## Epsilon removal preserves the accepted words -/

theorem epsReach_lift (nfa : NFA) (word : Word) (i : Nat) (q c : Nat)
    (h : EpsReach nfa.transitions q c) :
    Relation.ReflTransGen (Step nfa word) (q, i) (c, i) := by
  induction h with
  | refl => exact Relation.ReflTransGen.refl
  | tail _ hstep ih => exact Relation.ReflTransGen.tail ih (Step.eps _ i _ hstep)

theorem symbol_ne_eps (c : Fin 256) : ((c.val : Nat) : Int) ≠ -1 := by
  omega

theorem step_epsilonRemover (nfa : NFA) (word : Word) (x y : Nat × Nat)
    (h : Step (epsilonRemover nfa) word x y) : Relation.ReflTransGen (Step nfa word) x y := by
  cases h with
  | eps q i t he =>
    exact absurd rfl ((epsilonRemover_edge nfa q _).1 he).1
  | sym q i t hi he =>
    obtain ⟨-, c, hc, he2⟩ := (epsilonRemover_edge nfa q _).1 he
    exact Relation.ReflTransGen.tail (epsReach_lift nfa word i q c hc) (Step.sym c i t hi he2)

theorem path_epsilonRemover (nfa : NFA) (word : Word) (x y : Nat × Nat)
    (h : Relation.ReflTransGen (Step (epsilonRemover nfa) word) x y) :
    Relation.ReflTransGen (Step nfa word) x y := by
  induction h with
  | refl => exact Relation.ReflTransGen.refl
  | tail _ hstep ih =>
    exact Relation.ReflTransGen.trans ih (step_epsilonRemover nfa word _ _ hstep)

theorem accepts_of_epsilonRemover (nfa : NFA) (word : Word)
    (h : Accepts (epsilonRemover nfa) word) : Accepts nfa word := by
  obtain ⟨f, hf, hpath⟩ := h
  rw [epsilonRemover_start] at hpath
  obtain ⟨c, hc, hfc⟩ := (epsilonRemover_finishes nfa f).1 hf
  exact ⟨c, hc, Relation.ReflTransGen.trans (path_epsilonRemover nfa word _ _ hpath)
    (epsReach_lift nfa word _ f c hfc)⟩

theorem removerGood_eps (nfa : NFA) (word : Word) (q t i : Nat)
    (he : EpsStep nfa.transitions q t) (h : RemoverGood nfa word (t, i)) :
    RemoverGood nfa word (q, i) := by
  obtain ⟨f, hf, hpath⟩ := h
  rcases Relation.ReflTransGen.cases_head hpath with heq | ⟨y, hstep, hrest⟩
  · have h1 : t = f := congrArg Prod.fst heq
    have h2 : i = word.length := congrArg Prod.snd heq
    subst h1 h2
    obtain ⟨c, hc, htc⟩ := (epsilonRemover_finishes nfa t).1 hf
    exact ⟨q, (epsilonRemover_finishes nfa q).2 ⟨c, hc, Relation.ReflTransGen.head he htc⟩,
      Relation.ReflTransGen.refl⟩
  · refine ⟨f, hf, Relation.ReflTransGen.head ?_ hrest⟩
    cases hstep with
    | eps _ _ t2 he2 => exact absurd rfl ((epsilonRemover_edge nfa t _).1 he2).1
    | sym _ _ t2 hi he2 =>
      obtain ⟨hne, c, hc, he3⟩ := (epsilonRemover_edge nfa t _).1 he2
      exact Step.sym q i t2 hi
        ((epsilonRemover_edge nfa q _).2 ⟨hne, c, Relation.ReflTransGen.head he hc, he3⟩)

theorem removerGood_step (nfa : NFA) (word : Word) (x y : Nat × Nat)
    (hs : Step nfa word x y) (h : RemoverGood nfa word y) : RemoverGood nfa word x := by
  cases hs with
  | eps q i t he => exact removerGood_eps nfa word q t i he h
  | sym q i t hi he =>
    obtain ⟨f, hf, hpath⟩ := h
    refine ⟨f, hf, Relation.ReflTransGen.head (Step.sym q i t hi ?_) hpath⟩
    exact (epsilonRemover_edge nfa q _).2
      ⟨symbol_ne_eps _, q, Relation.ReflTransGen.refl, he⟩

theorem epsilonRemover_of_accepts (nfa : NFA) (word : Word) (h : Accepts nfa word) :
    Accepts (epsilonRemover nfa) word := by
  obtain ⟨f, hf, hpath⟩ := h
  have hgood : RemoverGood nfa word (nfa.start, 0) := by
    generalize (nfa.start, 0) = x at hpath
    induction hpath using Relation.ReflTransGen.head_induction_on with
    | refl =>
      exact ⟨f, (epsilonRemover_finishes nfa f).2 ⟨f, hf, Relation.ReflTransGen.refl⟩,
        Relation.ReflTransGen.refl⟩
    | head hstep _ ih => exact removerGood_step nfa word _ _ hstep ih
  obtain ⟨f2, hf2, hp2⟩ := hgood
  refine ⟨f2, hf2, ?_⟩
  rw [epsilonRemover_start]
  exact hp2

/-- The automaton `epsilonRemover nfa` accepts the words that `nfa` accepts. -/
theorem accepts_epsilonRemover (nfa : NFA) (word : Word) :
    Accepts (epsilonRemover nfa) word ↔ Accepts nfa word :=
  ⟨accepts_of_epsilonRemover nfa word, epsilonRemover_of_accepts nfa word⟩

/-- The simulator gives the same answer before and after epsilon removal. -/
theorem simulateNFA_epsilonRemover (nfa : NFA) (word : Word) :
    simulateNFA (epsilonRemover nfa) word = simulateNFA nfa word := by
  have h1 := simulateNFA_iff (epsilonRemover nfa) word
  have h2 := simulateNFA_iff nfa word
  have h3 := accepts_epsilonRemover nfa word
  cases ha : simulateNFA (epsilonRemover nfa) word <;> cases hb : simulateNFA nfa word <;>
    simp_all

/-! ## Runs on words -/

theorem run_of_path (nfa : NFA) (word : Word) (f : Nat) (x : Nat × Nat)
    (h : Relation.ReflTransGen (Step nfa word) x (f, word.length)) :
    Run nfa.transitions f x.1 (word.drop x.2) := by
  induction h using Relation.ReflTransGen.head_induction_on with
  | refl =>
    simp only [List.drop_length]
    exact Run.done
  | head hstep _ ih =>
    cases hstep with
    | eps q i t he => exact Run.eps q t _ he ih
    | sym q i t hi he =>
      simp only at ih ⊢
      rw [List.drop_eq_getElem_cons hi]
      exact Run.sym q t _ _ he ih

theorem path_of_run (nfa : NFA) (word : Word) (f q : Nat) (u : Word)
    (h : Run nfa.transitions f q u) :
    ∀ i, i ≤ word.length → word.drop i = u →
      Relation.ReflTransGen (Step nfa word) (q, i) (f, word.length) := by
  induction h with
  | done =>
    intro i hi hd
    have h1 : word.length ≤ i := List.drop_eq_nil_iff.1 hd
    have h2 : i = word.length := le_antisymm hi h1
    rw [h2]
  | eps q t w he _ ih =>
    intro i hi hd
    exact Relation.ReflTransGen.head (Step.eps q i t he) (ih i hi hd)
  | sym q t c w he _ ih =>
    intro i hi hd
    have hlt : i < word.length := by
      by_contra hge
      rw [List.drop_eq_nil_iff.2 (by omega)] at hd
      cases hd
    rw [List.drop_eq_getElem_cons hlt] at hd
    have h1 : word[i] = c := (List.cons.inj hd).1
    have h2 : word.drop (i + 1) = w := (List.cons.inj hd).2
    refine Relation.ReflTransGen.head (Step.sym q i t hlt ?_) (ih (i + 1) hlt h2)
    rw [h1]
    exact he

/-- Acceptance in terms of runs on words. -/
theorem accepts_iff_run (nfa : NFA) (word : Word) :
    Accepts nfa word ↔ ∃ f, f ∈ nfa.finishes ∧ Run nfa.transitions f nfa.start word := by
  constructor
  · rintro ⟨f, hf, hp⟩
    exact ⟨f, hf, run_of_path nfa word f _ hp⟩
  · rintro ⟨f, hf, hr⟩
    exact ⟨f, hf, path_of_run nfa word f _ _ hr 0 (Nat.zero_le _) rfl⟩

theorem run_mono (m m2 : TransMap) (h : ∀ q tr, Edge m q tr → Edge m2 q tr) (r q : Nat)
    (w : Word) (hr : Run m r q w) : Run m2 r q w := by
  induction hr with
  | done => exact Run.done
  | eps q t w he _ ih => exact Run.eps q t w (h _ _ he) ih
  | sym q t c w he _ ih => exact Run.sym q t c w (h _ _ he) ih

theorem run_append (m : TransMap) (r t q : Nat) (w1 w2 : Word) (h1 : Run m t q w1)
    (h2 : Run m r t w2) : Run m r q (w1 ++ w2) := by
  induction h1 with
  | done => exact h2
  | eps q t2 w he _ ih => exact Run.eps q t2 _ he ih
  | sym q t2 c w he _ ih => exact Run.sym q t2 c _ he ih

/-- A state without outgoing transitions is left by the empty run only. -/
theorem run_of_no_edge (m : TransMap) (r q : Nat) (w : Word) (hno : ∀ tr, ¬ Edge m q tr)
    (h : Run m r q w) : q = r ∧ w = [] := by
  cases h with
  | done => exact ⟨rfl, rfl⟩
  | eps _ t _ he _ => exact absurd he (hno _)
  | sym _ t c _ he _ => exact absurd he (hno _)

/-! ## Tables built by the composite builders -/

theorem keys_mapAppend (m : TransMap) (k : Nat) (v : List Transition) :
    (mapAppend m k v).map Prod.fst =
      if k ∈ m.map Prod.fst then m.map Prod.fst else m.map Prod.fst ++ [k] := by
  induction m with
  | nil => simp [mapAppend]
  | cons kv m ih =>
    obtain ⟨k2, v2⟩ := kv
    by_cases hk : k2 = k
    · subst hk
      simp [mapAppend]
    · have hk2 : ¬ k = k2 := fun h => hk h.symm
      simp only [mapAppend, hk, if_false, List.map_cons, ih, List.mem_cons, hk2, false_or]
      split_ifs <;> simp

theorem nodup_mapAppend (m : TransMap) (k : Nat) (v : List Transition)
    (h : (m.map Prod.fst).Nodup) : ((mapAppend m k v).map Prod.fst).Nodup := by
  rw [keys_mapAppend]
  split_ifs with hk
  · exact h
  · exact List.Nodup.append h (List.nodup_singleton k) (by simpa using hk)

theorem nodup_mergeTransitions (dst src : TransMap) (h : (dst.map Prod.fst).Nodup) :
    ((mergeTransitions dst src).map Prod.fst).Nodup := by
  unfold mergeTransitions
  induction src generalizing dst with
  | nil => exact h
  | cons kv src ih =>
    rw [List.foldl_cons]
    exact ih _ (nodup_mapAppend dst kv.1 kv.2 h)

theorem edge_cons (k : Nat) (v : List Transition) (m : TransMap) (q : Nat) (tr : Transition) :
    Edge ((k, v) :: m) q tr ↔ (q = k ∧ tr ∈ v) ∨ (q ≠ k ∧ Edge m q tr) := by
  unfold Edge
  simp only [mapFind]
  by_cases h : k = q
  · subst h
    simp
  · have h2 : ¬ q = k := fun h3 => h h3.symm
    simp [h, h2]

/-- Merging a table without repeated keys into another adds its transitions. -/
theorem edge_mergeTransitions (dst src : TransMap) (h : (src.map Prod.fst).Nodup) (q : Nat)
    (tr : Transition) :
    Edge (mergeTransitions dst src) q tr ↔ Edge dst q tr ∨ Edge src q tr := by
  unfold mergeTransitions
  induction src generalizing dst with
  | nil =>
    simp only [List.foldl_nil]
    constructor
    · exact Or.inl
    · rintro (h1 | h1)
      · exact h1
      · exact absurd h1 (edge_nil q tr)
  | cons kv src ih =>
    obtain ⟨k, v⟩ := kv
    rw [List.map_cons, List.nodup_cons] at h
    rw [List.foldl_cons, ih _ h.2, edge_mapAppend, edge_cons]
    constructor
    · rintro ((h1 | h1) | h1)
      · exact Or.inl h1
      · exact Or.inr (Or.inl h1)
      · refine Or.inr (Or.inr ⟨?_, h1⟩)
        rintro rfl
        exact h.1 (edge_mem_keys _ _ _ h1)
    · rintro (h1 | h1 | ⟨-, h1⟩)
      · exact Or.inl (Or.inl h1)
      · exact Or.inl (Or.inr h1)
      · exact Or.inr h1

theorem setInsert_nil (x : Nat) : setInsert [] x = [x] := by
  simp [setInsert]

theorem setBegin_singleton (x : Nat) : setBegin [x] = x := rfl

theorem buildSymbol_edge (n : Nat) (a : Int) (q : Nat) (tr : Transition) :
    Edge (buildSymbol n a).transitions q tr ↔ q = n + 1 ∧ tr = ⟨n + 2, a⟩ := by
  simp only [buildSymbol, setInsert_nil, setBegin_singleton, edge_mapPushBack]
  constructor
  · rintro (h | h)
    · exact absurd h (edge_nil q tr)
    · exact h
  · exact Or.inr

theorem buildEpsilon_eq (n : Nat) : buildEpsilon n = buildSymbol n (-1) := rfl

theorem buildSymbol_fragOK (n : Nat) (a : Int) : FragOK (buildSymbol n a) n (n + 2) := by
  refine ⟨by simp [buildSymbol, setInsert_nil], by simp [buildSymbol], by simp [buildSymbol],
    ?_, ?_⟩
  · intro q tr h
    obtain ⟨rfl, rfl⟩ := (buildSymbol_edge n a q tr).1 h
    simp
  · simp [buildSymbol, mapPushBack, mapAppend]

theorem buildEmpty_fragOK (n : Nat) : FragOK (buildEmpty n) n (n + 2) := by
  refine ⟨by simp [buildEmpty, setInsert_nil], by simp [buildEmpty], by simp [buildEmpty],
    ?_, by simp [buildEmpty]⟩
  intro q tr h
  exact absurd h (edge_nil q tr)

theorem buildAlternation_edge (c : Nat) (left right : NFA) (eL eR : Nat)
    (hL : left.finishes = [eL]) (hR : right.finishes = [eR])
    (hnd : (right.transitions.map Prod.fst).Nodup) (q : Nat) (tr : Transition) :
    Edge (buildAlternation c left right).transitions q tr ↔
      Edge left.transitions q tr ∨ Edge right.transitions q tr ∨
        (q = c + 1 ∧ tr = ⟨left.start, -1⟩) ∨ (q = c + 1 ∧ tr = ⟨right.start, -1⟩) ∨
        (q = eL ∧ tr = ⟨c + 2, -1⟩) ∨ (q = eR ∧ tr = ⟨c + 2, -1⟩) := by
  simp only [buildAlternation, setInsert_nil, setBegin_singleton, edge_mapPushBack,
    edge_mergeTransitions _ _ hnd, hL, hR]
  tauto

theorem buildConcatenation_edge (left right : NFA) (eL : Nat)
    (hL : left.finishes = [eL])
    (hnd : (right.transitions.map Prod.fst).Nodup) (q : Nat) (tr : Transition) :
    Edge (buildConcatenation left right).transitions q tr ↔
      Edge left.transitions q tr ∨ Edge right.transitions q tr ∨
        (q = eL ∧ tr = ⟨right.start, -1⟩) := by
  simp only [buildConcatenation, setBegin_singleton, edge_mapPushBack,
    edge_mergeTransitions _ _ hnd, hL]
  tauto

theorem buildIteration_edge (c : Nat) (node : NFA) (eN : Nat)
    (hN : node.finishes = [eN])
    (hnd : (node.transitions.map Prod.fst).Nodup) (q : Nat) (tr : Transition) :
    Edge (buildIteration c node).transitions q tr ↔
      Edge node.transitions q tr ∨
        (q = c + 1 ∧ tr = ⟨node.start, -1⟩) ∨ (q = eN ∧ tr = ⟨c + 2, -1⟩) ∨
        (q = c + 1 ∧ tr = ⟨c + 2, -1⟩) ∨ (q = eN ∧ tr = ⟨node.start, -1⟩) := by
  simp only [buildIteration, setInsert_nil, setBegin_singleton, edge_mapPushBack,
    edge_mergeTransitions _ _ hnd, hN]
  constructor
  · rintro ((((((h | h) | h) | h) | h) | h))
    · exact absurd h (edge_nil q tr)
    · exact Or.inl h
    · exact Or.inr (Or.inl h)
    · exact Or.inr (Or.inr (Or.inl h))
    · exact Or.inr (Or.inr (Or.inr (Or.inl h)))
    · exact Or.inr (Or.inr (Or.inr (Or.inr h)))
  · tauto

theorem buildAlternation_fragOK (n : Nat) (left right : NFA) (eL eR : Nat)
    (hL : FragOK left n eL) (hR : FragOK right eL eR) :
    FragOK (buildAlternation eR left right) n (eR + 2) := by
  obtain ⟨hLf, hLs, hLe, hLedge, hLnd⟩ := hL
  obtain ⟨hRf, hRs, hRe, hRedge, hRnd⟩ := hR
  refine ⟨by simp [buildAlternation, setInsert_nil], ?_, ?_, ?_, ?_⟩
  · simp only [buildAlternation]
    omega
  · simp [buildAlternation]
  · intro q tr h
    rcases (buildAlternation_edge eR left right eL eR hLf hRf hRnd q tr).1 h with
      h | h | ⟨rfl, rfl⟩ | ⟨rfl, rfl⟩ | ⟨rfl, rfl⟩ | ⟨rfl, rfl⟩
    · have := hLedge q tr h
      omega
    · have := hRedge q tr h
      omega
    all_goals (simp only; omega)
  · simp only [buildAlternation, mapPushBack]
    exact nodup_mapAppend _ _ _ (nodup_mapAppend _ _ _ (nodup_mapAppend _ _ _
      (nodup_mapAppend _ _ _ (nodup_mergeTransitions _ _ hLnd))))

theorem buildConcatenation_fragOK (n : Nat) (left right : NFA) (eL eR : Nat)
    (hL : FragOK left n eL) (hR : FragOK right eL eR) :
    FragOK (buildConcatenation left right) n eR := by
  obtain ⟨hLf, hLs, hLe, hLedge, hLnd⟩ := hL
  obtain ⟨hRf, hRs, hRe, hRedge, hRnd⟩ := hR
  refine ⟨by simp [buildConcatenation, setInsert_nil, hRf, setBegin_singleton], ?_, ?_, ?_, ?_⟩
  · simp only [buildConcatenation]
    omega
  · simp only [buildConcatenation]
    omega
  · intro q tr h
    rcases (buildConcatenation_edge left right eL hLf hRnd q tr).1 h with
      h | h | ⟨rfl, rfl⟩
    · have := hLedge q tr h
      omega
    · have := hRedge q tr h
      omega
    · simp only
      omega
  · simp only [buildConcatenation, mapPushBack]
    exact nodup_mapAppend _ _ _ (nodup_mergeTransitions _ _ hLnd)

theorem buildIteration_fragOK (n : Nat) (node : NFA) (eN : Nat) (hN : FragOK node n eN) :
    FragOK (buildIteration eN node) n (eN + 2) := by
  obtain ⟨hNf, hNs, hNe, hNedge, hNnd⟩ := hN
  refine ⟨by simp [buildIteration, setInsert_nil], ?_, ?_, ?_, ?_⟩
  · simp only [buildIteration]
    omega
  · simp [buildIteration]
  · intro q tr h
    rcases (buildIteration_edge eN node eN hNf hNnd q tr).1 h with
      h | ⟨rfl, rfl⟩ | ⟨rfl, rfl⟩ | ⟨rfl, rfl⟩ | ⟨rfl, rfl⟩
    · have := hNedge q tr h
      omega
    all_goals (simp only; omega)
  · simp only [buildIteration, mapPushBack]
    exact nodup_mapAppend _ _ _ (nodup_mapAppend _ _ _ (nodup_mapAppend _ _ _
      (nodup_mapAppend _ _ _ (nodup_mergeTransitions _ _ List.nodup_nil))))

/-- Every fragment that `buildNFA` returns is well formed, its exit being the
element of its accept set. -/
theorem buildNFA_fragOK (r : RegExp) :
    ∀ n, FragOK (buildNFA r n) n (setBegin (buildNFA r n).finishes) := by
  induction r with
  | Symbol c =>
    intro n
    have h := buildSymbol_fragOK n (c.val : Int)
    simp only [buildNFA]
    rw [h.1, setBegin_singleton]
    exact h
  | Epsilon =>
    intro n
    have h := buildSymbol_fragOK n (-1)
    simp only [buildNFA, buildEpsilon_eq]
    rw [h.1, setBegin_singleton]
    exact h
  | Empty =>
    intro n
    have h := buildEmpty_fragOK n
    simp only [buildNFA]
    rw [h.1, setBegin_singleton]
    exact h
  | Alternation l r ihl ihr =>
    intro n
    have h := buildAlternation_fragOK n _ _ _ _ (ihl n) (ihr _)
    simp only [buildNFA]
    rw [h.1, setBegin_singleton]
    exact h
  | Concatenation l r ihl ihr =>
    intro n
    have h := buildConcatenation_fragOK n _ _ _ _ (ihl n) (ihr _)
    simp only [buildNFA]
    rw [h.1, setBegin_singleton]
    exact h
  | Iteration r ih =>
    intro n
    have h := buildIteration_fragOK n _ _ (ih n)
    simp only [buildNFA]
    rw [h.1, setBegin_singleton]
    exact h

/-- Every fragment that `buildNFA` returns has exactly one accept state. -/
theorem buildNFA_finishes (r : RegExp) (n : Nat) :
    (buildNFA r n).finishes = [setBegin (buildNFA r n).finishes] :=
  (buildNFA_fragOK r n).1

/-! ## The language of a regular expression -/

/-! ## Runs through the composite fragments -/

/-- A run that starts inside a region `S` and ends outside of it follows the
sub-table `m1` up to the region's exit state `x` and leaves by an epsilon
transition out of `x`. -/
theorem run_exit (m m1 : TransMap) (S X : Nat → Prop) (x r : Nat)
    (h : ∀ q tr, S q → Edge m q tr →
      (Edge m1 q tr ∧ S tr.to_) ∨ (q = x ∧ tr.symbol = -1 ∧ X tr.to_))
    (hr : ¬ S r) (q : Nat) (w : Word) (hrun : Run m r q w) :
    S q → ∃ w1 w2 t, w = w1 ++ w2 ∧ Run m1 x q w1 ∧ X t ∧ Run m r t w2 := by
  induction hrun with
  | done => intro hs; exact absurd hs hr
  | eps q t w he hrest ih =>
    intro hs
    rcases h q _ hs he with ⟨h1, h2⟩ | ⟨h1, -, h3⟩
    · obtain ⟨w1, w2, t2, hw, hr1, hx, hr2⟩ := ih h2
      exact ⟨w1, w2, t2, hw, Run.eps q t w1 h1 hr1, hx, hr2⟩
    · subst h1
      exact ⟨[], w, t, rfl, Run.done, h3, hrest⟩
  | sym q t c w he hrest ih =>
    intro hs
    rcases h q _ hs he with ⟨h1, h2⟩ | ⟨-, h3, -⟩
    · obtain ⟨w1, w2, t2, hw, hr1, hx, hr2⟩ := ih h2
      exact ⟨c :: w1, w2, t2, by rw [hw]; rfl, Run.sym q t c w1 h1 hr1, hx, hr2⟩
    · exact absurd h3 (symbol_ne_eps c)

/-- A run that starts inside a region closed under the transitions follows the
sub-table `m1`. -/
theorem run_confine (m m1 : TransMap) (S : Nat → Prop) (r : Nat)
    (h : ∀ q tr, S q → Edge m q tr → Edge m1 q tr ∧ S tr.to_)
    (q : Nat) (w : Word) (hrun : Run m r q w) : S q → Run m1 r q w := by
  induction hrun with
  | done => intro _; exact Run.done
  | eps q t w he _ ih =>
    intro hs
    obtain ⟨h1, h2⟩ := h q _ hs he
    exact Run.eps q t w h1 (ih h2)
  | sym q t c w he _ ih =>
    intro hs
    obtain ⟨h1, h2⟩ := h q _ hs he
    exact Run.sym q t c w h1 (ih h2)

theorem run_buildSymbol (n : Nat) (c : Fin 256) (w : Word) :
    Run (buildSymbol n (c.val : Int)).transitions (n + 2) (n + 1) w ↔ w = [c] := by
  have hno : ∀ tr, ¬ Edge (buildSymbol n (c.val : Int)).transitions (n + 2) tr := by
    intro tr h
    have := ((buildSymbol_edge n _ _ tr).1 h).1
    omega
  constructor
  · intro h
    generalize hq : n + 1 = q at h
    cases h with
    | done => omega
    | eps _ t _ he _ =>
      have h2 := ((buildSymbol_edge n _ _ _).1 he).2
      rw [Transition.mk.injEq] at h2
      exact absurd h2.2.symm (symbol_ne_eps c)
    | sym _ t c2 w2 he hrest =>
      have h2 := ((buildSymbol_edge n _ _ _).1 he).2
      rw [Transition.mk.injEq] at h2
      obtain ⟨h3, h4⟩ := h2
      subst h3
      have h5 : c2 = c := Fin.ext (by exact_mod_cast h4)
      rw [(run_of_no_edge _ _ _ _ hno hrest).2, h5]
  · rintro rfl
    exact Run.sym _ (n + 2) c [] ((buildSymbol_edge n _ _ _).2 ⟨rfl, rfl⟩) Run.done

theorem run_buildEpsilon (n : Nat) (w : Word) :
    Run (buildEpsilon n).transitions (n + 2) (n + 1) w ↔ w = [] := by
  rw [buildEpsilon_eq]
  have hno : ∀ tr, ¬ Edge (buildSymbol n (-1)).transitions (n + 2) tr := by
    intro tr h
    have := ((buildSymbol_edge n _ _ tr).1 h).1
    omega
  constructor
  · intro h
    generalize hq : n + 1 = q at h
    cases h with
    | done => omega
    | eps _ t _ he hrest =>
      have h2 := ((buildSymbol_edge n _ _ _).1 he).2
      rw [Transition.mk.injEq] at h2
      obtain ⟨h3, -⟩ := h2
      subst h3
      exact (run_of_no_edge _ _ _ _ hno hrest).2
    | sym _ t c2 w2 he hrest =>
      have h2 := ((buildSymbol_edge n _ _ _).1 he).2
      rw [Transition.mk.injEq] at h2
      exact absurd h2.2 (symbol_ne_eps c2)
  · rintro rfl
    exact Run.eps _ (n + 2) [] ((buildSymbol_edge n _ _ _).2 ⟨rfl, rfl⟩) Run.done

theorem run_buildEmpty (n : Nat) (w : Word) :
    ¬ Run (buildEmpty n).transitions (n + 2) (n + 1) w := by
  intro h
  have := (run_of_no_edge _ _ _ _ (fun tr he => edge_nil _ tr he) h).1
  omega

theorem run_buildAlternation (n : Nat) (left right : NFA) (eL eR : Nat)
    (hL : FragOK left n eL) (hR : FragOK right eL eR) (w : Word) :
    Run (buildAlternation eR left right).transitions (eR + 2) (eR + 1) w ↔
      Run left.transitions eL left.start w ∨ Run right.transitions eR right.start w := by
  obtain ⟨hLf, hLs, hLe, hLedge, hLnd⟩ := hL
  obtain ⟨hRf, hRs, hRe, hRedge, hRnd⟩ := hR
  have hE := buildAlternation_edge eR left right eL eR hLf hRf hRnd
  generalize (buildAlternation eR left right).transitions = m at hE ⊢
  have hno : ∀ tr, ¬ Edge m (eR + 2) tr := by
    intro tr h
    rcases (hE _ tr).1 h with h | h | ⟨h, -⟩ | ⟨h, -⟩ | ⟨h, -⟩ | ⟨h, -⟩
    · have := hLedge _ tr h
      omega
    · have := hRedge _ tr h
      omega
    all_goals omega
  have hexitL : ∀ q tr, (n < q ∧ q ≤ eL) → Edge m q tr →
      (Edge left.transitions q tr ∧ (n < tr.to_ ∧ tr.to_ ≤ eL)) ∨
        (q = eL ∧ tr.symbol = -1 ∧ tr.to_ = eR + 2) := by
    intro q tr hs h
    rcases (hE q tr).1 h with h | h | ⟨h, -⟩ | ⟨h, -⟩ | ⟨h1, h2⟩ | ⟨h, -⟩
    · have := hLedge q tr h
      exact Or.inl ⟨h, this.2.2⟩
    · have := hRedge q tr h
      omega
    · omega
    · omega
    · subst h2
      exact Or.inr ⟨h1, rfl, rfl⟩
    · omega
  have hexitR : ∀ q tr, (eL < q ∧ q ≤ eR) → Edge m q tr →
      (Edge right.transitions q tr ∧ (eL < tr.to_ ∧ tr.to_ ≤ eR)) ∨
        (q = eR ∧ tr.symbol = -1 ∧ tr.to_ = eR + 2) := by
    intro q tr hs h
    rcases (hE q tr).1 h with h | h | ⟨h, -⟩ | ⟨h, -⟩ | ⟨h, -⟩ | ⟨h1, h2⟩
    · have := hLedge q tr h
      omega
    · have := hRedge q tr h
      exact Or.inl ⟨h, this.2.2⟩
    · omega
    · omega
    · omega
    · subst h2
      exact Or.inr ⟨h1, rfl, rfl⟩
  constructor
  · intro h
    generalize hq : eR + 1 = q at h
    cases h with
    | done => omega
    | eps _ t _ he hrest =>
      rcases (hE q _).1 he with h | h | ⟨-, h⟩ | ⟨-, h⟩ | ⟨h, -⟩ | ⟨h, -⟩
      · have := hLedge q _ h
        omega
      · have := hRedge q _ h
        omega
      · rw [Transition.mk.injEq] at h
        obtain ⟨ht, -⟩ := h
        subst ht
        obtain ⟨w1, w2, t2, hw, hr1, hx, hr2⟩ := run_exit m left.transitions
          (fun q => n < q ∧ q ≤ eL) (fun t => t = eR + 2) eL (eR + 2)
          hexitL (by simp only; omega) _ w hrest (by simp only; omega)
        subst hx
        rw [(run_of_no_edge _ _ _ _ hno hr2).2, List.append_nil] at hw
        rw [hw]
        exact Or.inl hr1
      · rw [Transition.mk.injEq] at h
        obtain ⟨ht, -⟩ := h
        subst ht
        obtain ⟨w1, w2, t2, hw, hr1, hx, hr2⟩ := run_exit m right.transitions
          (fun q => eL < q ∧ q ≤ eR) (fun t => t = eR + 2) eR (eR + 2)
          hexitR (by simp only; omega) _ w hrest (by simp only; omega)
        subst hx
        rw [(run_of_no_edge _ _ _ _ hno hr2).2, List.append_nil] at hw
        rw [hw]
        exact Or.inr hr1
      · omega
      · omega
    | sym _ t c w2 he hrest =>
      rcases (hE q _).1 he with h | h | ⟨-, h⟩ | ⟨-, h⟩ | ⟨h, -⟩ | ⟨h, -⟩
      · have := hLedge q _ h
        omega
      · have := hRedge q _ h
        omega
      · rw [Transition.mk.injEq] at h
        exact absurd h.2 (symbol_ne_eps c)
      · rw [Transition.mk.injEq] at h
        exact absurd h.2 (symbol_ne_eps c)
      · omega
      · omega
  · rintro (h | h)
    · have h1 : Run m (eR + 2) left.start (w ++ []) :=
        run_append m _ eL _ w []
          (run_mono _ m (fun q tr he => (hE q tr).2 (Or.inl he)) _ _ _ h)
          (Run.eps eL (eR + 2) [] ((hE _ _).2 (Or.inr (Or.inr (Or.inr (Or.inr (Or.inl ⟨rfl, rfl⟩))))))
            Run.done)
      rw [List.append_nil] at h1
      exact Run.eps _ _ _ ((hE _ _).2 (Or.inr (Or.inr (Or.inl ⟨rfl, rfl⟩)))) h1
    · have h1 : Run m (eR + 2) right.start (w ++ []) :=
        run_append m _ eR _ w []
          (run_mono _ m (fun q tr he => (hE q tr).2 (Or.inr (Or.inl he))) _ _ _ h)
          (Run.eps eR (eR + 2) [] ((hE _ _).2 (Or.inr (Or.inr (Or.inr (Or.inr (Or.inr ⟨rfl, rfl⟩))))))
            Run.done)
      rw [List.append_nil] at h1
      exact Run.eps _ _ _ ((hE _ _).2 (Or.inr (Or.inr (Or.inr (Or.inl ⟨rfl, rfl⟩))))) h1

theorem run_buildConcatenation (n : Nat) (left right : NFA) (eL eR : Nat)
    (hL : FragOK left n eL) (hR : FragOK right eL eR) (w : Word) :
    Run (buildConcatenation left right).transitions eR left.start w ↔
      ∃ w1 w2, w = w1 ++ w2 ∧ Run left.transitions eL left.start w1 ∧
        Run right.transitions eR right.start w2 := by
  obtain ⟨hLf, hLs, hLe, hLedge, hLnd⟩ := hL
  obtain ⟨hRf, hRs, hRe, hRedge, hRnd⟩ := hR
  have hE := buildConcatenation_edge left right eL hLf hRnd
  generalize (buildConcatenation left right).transitions = m at hE ⊢
  have hexitL : ∀ q tr, (n < q ∧ q ≤ eL) → Edge m q tr →
      (Edge left.transitions q tr ∧ (n < tr.to_ ∧ tr.to_ ≤ eL)) ∨
        (q = eL ∧ tr.symbol = -1 ∧ tr.to_ = right.start) := by
    intro q tr hs h
    rcases (hE q tr).1 h with h | h | ⟨h1, h2⟩
    · have := hLedge q tr h
      exact Or.inl ⟨h, this.2.2⟩
    · have := hRedge q tr h
      omega
    · subst h2
      exact Or.inr ⟨h1, rfl, rfl⟩
  have hconfR : ∀ q tr, (eL < q ∧ q ≤ eR) → Edge m q tr →
      Edge right.transitions q tr ∧ (eL < tr.to_ ∧ tr.to_ ≤ eR) := by
    intro q tr hs h
    rcases (hE q tr).1 h with h | h | ⟨h, -⟩
    · have := hLedge q tr h
      omega
    · have := hRedge q tr h
      exact ⟨h, this.2.2⟩
    · omega
  constructor
  · intro h
    obtain ⟨w1, w2, t2, hw, hr1, hx, hr2⟩ := run_exit m left.transitions
      (fun q => n < q ∧ q ≤ eL) (fun t => t = right.start) eL eR
      hexitL (by simp only; omega) left.start w h (by simp only; omega)
    subst hx
    exact ⟨w1, w2, hw, hr1, run_confine m right.transitions
      (fun q => eL < q ∧ q ≤ eR) eR hconfR _ _ hr2 (by simp only; omega)⟩
  · rintro ⟨w1, w2, rfl, h1, h2⟩
    exact run_append m _ eL _ w1 w2
      (run_mono _ m (fun q tr he => (hE q tr).2 (Or.inl he)) _ _ _ h1)
      (Run.eps eL right.start w2 ((hE _ _).2 (Or.inr (Or.inr ⟨rfl, rfl⟩)))
        (run_mono _ m (fun q tr he => (hE q tr).2 (Or.inr (Or.inl he))) _ _ _ h2))

theorem run_buildIteration (n : Nat) (node : NFA) (eN : Nat) (hN : FragOK node n eN)
    (Lg : Language (Fin 256)) (hLg : ∀ w, Run node.transitions eN node.start w ↔ w ∈ Lg)
    (w : Word) :
    Run (buildIteration eN node).transitions (eN + 2) (eN + 1) w ↔ w ∈ KStar.kstar Lg := by
  obtain ⟨hNf, hNs, hNe, hNedge, hNnd⟩ := hN
  have hE := buildIteration_edge eN node eN hNf hNnd
  generalize (buildIteration eN node).transitions = m at hE ⊢
  have hno : ∀ tr, ¬ Edge m (eN + 2) tr := by
    intro tr h
    rcases (hE _ tr).1 h with h | ⟨h, -⟩ | ⟨h, -⟩ | ⟨h, -⟩ | ⟨h, -⟩
    · have := hNedge _ tr h
      omega
    all_goals omega
  have hcons : ∀ w1 w2 : Word, w1 ∈ Lg → w2 ∈ KStar.kstar Lg → w1 ++ w2 ∈ KStar.kstar Lg := by
    intro w1 w2 h1 h2
    obtain ⟨L, hL, hall⟩ := Language.mem_kstar.1 h2
    refine Language.mem_kstar.2 ⟨w1 :: L, by rw [hL, List.flatten_cons], ?_⟩
    intro y hy
    rcases List.mem_cons.1 hy with rfl | hy
    · exact h1
    · exact hall y hy
  have hinside : ∀ q u, Run m (eN + 2) q u → (n < q ∧ q ≤ eN) →
      ∃ w1 w2, u = w1 ++ w2 ∧ Run node.transitions eN q w1 ∧ w2 ∈ KStar.kstar Lg := by
    intro q u hrun
    induction hrun with
    | done => intro hs; omega
    | eps q t u he hrest ih =>
      intro hs
      rcases (hE q _).1 he with h | ⟨h, -⟩ | ⟨h1, h2⟩ | ⟨h, -⟩ | ⟨h1, h2⟩
      · have hr := hNedge q _ h
        obtain ⟨w1, w2, hw, hr1, hk⟩ := ih hr.2.2
        exact ⟨w1, w2, hw, Run.eps q t w1 h hr1, hk⟩
      · omega
      · rw [Transition.mk.injEq] at h2
        obtain ⟨ht, -⟩ := h2
        subst ht h1
        rw [(run_of_no_edge _ _ _ _ hno hrest).2]
        exact ⟨[], [], rfl, Run.done, Language.nil_mem_kstar Lg⟩
      · omega
      · rw [Transition.mk.injEq] at h2
        obtain ⟨ht, -⟩ := h2
        subst ht h1
        obtain ⟨w1, w2, hw, hr1, hk⟩ := ih (by omega)
        refine ⟨[], u, rfl, Run.done, ?_⟩
        rw [hw]
        exact hcons w1 w2 ((hLg w1).1 hr1) hk
    | sym q t c u he hrest ih =>
      intro hs
      rcases (hE q _).1 he with h | ⟨-, h⟩ | ⟨-, h⟩ | ⟨-, h⟩ | ⟨-, h⟩
      · have hr := hNedge q _ h
        obtain ⟨w1, w2, hw, hr1, hk⟩ := ih hr.2.2
        exact ⟨c :: w1, w2, by rw [hw]; rfl, Run.sym q t c w1 h hr1, hk⟩
      all_goals
        rw [Transition.mk.injEq] at h
        exact absurd h.2 (symbol_ne_eps c)
  have hback : ∀ L : List Word, (∀ y, y ∈ L → y ∈ Lg) → Run m (eN + 2) eN L.flatten := by
    intro L
    induction L with
    | nil =>
      intro _
      exact Run.eps eN (eN + 2) [] ((hE _ _).2 (Or.inr (Or.inr (Or.inl ⟨rfl, rfl⟩)))) Run.done
    | cons y L ih =>
      intro hall
      rw [List.flatten_cons]
      refine Run.eps eN node.start _
        ((hE _ _).2 (Or.inr (Or.inr (Or.inr (Or.inr ⟨rfl, rfl⟩))))) ?_
      exact run_append m _ eN _ y _
        (run_mono _ m (fun q tr he => (hE q tr).2 (Or.inl he)) _ _ _
          ((hLg y).2 (hall y (List.mem_cons_self _ _))))
        (ih fun z hz => hall z (List.mem_cons_of_mem _ hz))
  constructor
  · intro h
    generalize hq : eN + 1 = q at h
    cases h with
    | done => omega
    | eps _ t _ he hrest =>
      rcases (hE q _).1 he with h | ⟨-, h2⟩ | ⟨h, -⟩ | ⟨-, h2⟩ | ⟨h, -⟩
      · have := hNedge q _ h
        omega
      · rw [Transition.mk.injEq] at h2
        obtain ⟨ht, -⟩ := h2
        subst ht
        obtain ⟨w1, w2, hw, hr1, hk⟩ := hinside _ _ hrest (by omega)
        rw [hw]
        exact hcons w1 w2 ((hLg w1).1 hr1) hk
      · omega
      · rw [Transition.mk.injEq] at h2
        obtain ⟨ht, -⟩ := h2
        subst ht
        rw [(run_of_no_edge _ _ _ _ hno hrest).2]
        exact Language.nil_mem_kstar Lg
      · omega
    | sym _ t c w2 he hrest =>
      rcases (hE q _).1 he with h | ⟨-, h⟩ | ⟨-, h⟩ | ⟨-, h⟩ | ⟨-, h⟩
      · have := hNedge q _ h
        omega
      all_goals
        rw [Transition.mk.injEq] at h
        exact absurd h.2 (symbol_ne_eps c)
  · intro h
    obtain ⟨L, hL, hall⟩ := Language.mem_kstar.1 h
    subst hL
    match L, hall with
    | [], _ =>
      exact Run.eps _ (eN + 2) [] ((hE _ _).2 (Or.inr (Or.inr (Or.inr (Or.inl ⟨rfl, rfl⟩)))))
        Run.done
    | y :: L, hall =>
      rw [List.flatten_cons]
      refine Run.eps _ node.start _ ((hE _ _).2 (Or.inr (Or.inl ⟨rfl, rfl⟩))) ?_
      exact run_append m _ eN _ y _
        (run_mono _ m (fun q tr he => (hE q tr).2 (Or.inl he)) _ _ _
          ((hLg y).2 (hall y (List.mem_cons_self _ _))))
        (hback L fun z hz => hall z (List.mem_cons_of_mem _ hz))

/-- Thompson's construction is correct: the fragment built for `r` runs from its
start to its exit exactly on the words of `r`. -/
theorem buildNFA_run (r : RegExp) :
    ∀ (n : Nat) (w : Word),
      Run (buildNFA r n).transitions (setBegin (buildNFA r n).finishes) (buildNFA r n).start w ↔
        w ∈ lang r := by
  induction r with
  | Symbol c =>
    intro n w
    exact run_buildSymbol n c w
  | Epsilon =>
    intro n w
    exact (run_buildEpsilon n w).trans (Language.mem_one w).symm
  | Empty =>
    intro n w
    exact ⟨fun h => absurd h (run_buildEmpty n w), fun h => absurd h (Language.not_mem_zero w)⟩
  | Alternation l r ihl ihr =>
    intro n w
    have hL := buildNFA_fragOK l n
    have hR := buildNFA_fragOK r (setBegin (buildNFA l n).finishes)
    have h := run_buildAlternation n _ _ _ _ hL hR w
    have hf := (buildAlternation_fragOK n _ _ _ _ hL hR).1
    simp only [buildNFA, lang]
    rw [hf, setBegin_singleton, Language.mem_add, ← ihl n w, ← ihr _ w]
    exact h
  | Concatenation l r ihl ihr =>
    intro n w
    have hL := buildNFA_fragOK l n
    have hR := buildNFA_fragOK r (setBegin (buildNFA l n).finishes)
    have h := run_buildConcatenation n _ _ _ _ hL hR w
    have hf := (buildConcatenation_fragOK n _ _ _ _ hL hR).1
    simp only [buildNFA, lang]
    rw [hf, setBegin_singleton, Language.mem_mul]
    refine h.trans ?_
    constructor
    · rintro ⟨w1, w2, hw, h1, h2⟩
      exact ⟨w1, (ihl n w1).1 h1, w2, (ihr _ w2).1 h2, hw.symm⟩
    · rintro ⟨w1, h1, w2, h2, hw⟩
      exact ⟨w1, w2, hw.symm, (ihl n w1).2 h1, (ihr _ w2).2 h2⟩
  | Iteration r ih =>
    intro n w
    have hN := buildNFA_fragOK r n
    have h := run_buildIteration n _ _ hN (lang r) (ih n) w
    have hf := (buildIteration_fragOK n _ _ hN).1
    simp only [buildNFA, lang]
    rw [hf, setBegin_singleton]
    exact h

/-- The raw Thompson automaton accepts exactly the words of the expression. -/
theorem simulateNFA_buildNFA (r : RegExp) (n : Nat) (w : Word) :
    simulateNFA (buildNFA r n) w = true ↔ w ∈ lang r := by
  rw [simulateNFA_iff, accepts_iff_run, ← buildNFA_run r n w]
  constructor
  · rintro ⟨f, hf, hr⟩
    rw [buildNFA_finishes, List.mem_singleton] at hf
    rw [← hf]
    exact hr
  · intro h
    refine ⟨_, ?_, h⟩
    rw [buildNFA_finishes]
    exact List.mem_singleton.2 rfl

/-- The pipeline of `wordsMatch` accepts exactly the words of the expression. -/
theorem simulateNFA_pipeline (r : RegExp) (n : Nat) (w : Word) :
    simulateNFA (epsilonRemover (buildNFA r n)) w = true ↔ w ∈ lang r := by
  rw [simulateNFA_epsilonRemover]
  exact simulateNFA_buildNFA r n w

/-! ## The batch query -/

theorem ordInsert_of_lt (l : List Nat) (n : Nat) (h : ∀ x, x ∈ l → x < n) :
    ordInsert l n = l ++ [n] := by
  have hn : n ∉ l := fun hm => Nat.lt_irrefl n (h n hm)
  unfold ordInsert
  rw [if_neg hn]
  clear hn
  induction l with
  | nil => rfl
  | cons a l ih =>
    have ha : ¬ n ≤ a := Nat.not_le.2 (h a (List.mem_cons_self _ _))
    rw [List.orderedInsert, if_neg ha, ih fun x hx => h x (List.mem_cons_of_mem _ hx)]
    rfl

theorem foldl_ordInsert_range (p : Nat → Bool) (n : Nat) :
    (List.range n).foldl (fun result i => if p i then ordInsert result i else result) [] =
      (List.range n).filter p := by
  induction n with
  | zero => rfl
  | succ n ih =>
    rw [List.range_succ, List.foldl_append, ih, List.filter_append]
    simp only [List.foldl_cons, List.foldl_nil]
    cases hp : p n with
    | true =>
      simp only [if_true, List.filter_cons, hp, List.filter_nil]
      refine ordInsert_of_lt _ n ?_
      intro x hx
      exact List.mem_range.1 (List.mem_filter.1 hx).1
    | false => simp [hp]

/-- The result of `wordsMatch` lists, in ascending order, the indices of the words
that the compiled automaton accepts. -/
theorem wordsMatch_eq_filter (r : RegExp) (ws : List Word) :
    wordsMatch r ws = (List.range ws.length).filter
      (fun i => simulateNFA (epsilonRemover (buildNFA r 0)) (ws.getD i [])) := by
  unfold wordsMatch
  exact foldl_ordInsert_range _ _

theorem mem_wordsMatch (r : RegExp) (ws : List Word) (i : Nat) :
    i ∈ wordsMatch r ws ↔
      ∃ w, ws[i]? = some w ∧ simulateNFA (epsilonRemover (buildNFA r 0)) w = true := by
  rw [wordsMatch_eq_filter, List.mem_filter, List.mem_range]
  constructor
  · rintro ⟨hi, h⟩
    refine ⟨ws[i], List.getElem?_eq_getElem hi, ?_⟩
    rw [List.getD_eq_getElem _ _ hi] at h
    exact h
  · rintro ⟨w, hw, h⟩
    obtain ⟨hi, rfl⟩ := List.getElem?_eq_some_iff.1 hw
    refine ⟨hi, ?_⟩
    rw [List.getD_eq_getElem _ _ hi]
    exact h

/-! ## Properties stated by the specification -/

/-- C1: end-to-end matching is correct.  For every regular expression `r` and every
word `w`, `simulateNFA (epsilonRemover (buildNFA r 0)) w` is `true` exactly when `w`
belongs to the language of `r` under the standard denotational semantics; the
simulator's loop ends within its budget with that answer. -/
theorem C1_matching_correct (r : RegExp) (w : Word) :
    (simulateNFA (epsilonRemover (buildNFA r 0)) w = true ↔ w ∈ lang r) ∧
      simulateRun (epsilonRemover (buildNFA r 0)) w =
        some (simulateNFA (epsilonRemover (buildNFA r 0)) w) :=
  ⟨simulateNFA_pipeline r 0 w, simulateRun_eq _ w⟩

/-- C2: epsilon elimination preserves the accepted language.  For every automaton
`A` (any start state, any accept set, any transition table, states without outgoing
transitions included) and every word `w`, the simulator answers the same on `A` and
on `epsilonRemover A`; both runs of the simulator and every closure computation end
within their budgets. -/
theorem C2_epsilonRemover_preserves (A : NFA) (w : Word) :
    simulateNFA A w = simulateNFA (epsilonRemover A) w ∧
      simulateRun A w = some (simulateNFA A w) ∧
      simulateRun (epsilonRemover A) w = some (simulateNFA (epsilonRemover A) w) ∧
      ∀ s, epsClosureRun A s = some (epsClosure A s) :=
  ⟨(simulateNFA_epsilonRemover A w).symm, simulateRun_eq A w, simulateRun_eq _ w,
    fun s => epsClosureRun_eq A s⟩

/-- C3: the simulator decides path existence.  For every automaton `A`, with or
without epsilon transitions, and every word `w`, `simulateNFA A w` is `true` exactly
when a finite sequence of moves leads from `(A.start, 0)` to some `(q, w.length)`
with `q` an accept state, a symbol transition moving from position `i` to `i + 1`
only when `i < w.length` and its label is `w[i]`, an epsilon transition keeping the
position; the simulator's loop ends within its budget with that answer. -/
theorem C3_simulator_decides_paths (A : NFA) (w : Word) :
    (simulateNFA A w = true ↔
      ∃ q, q ∈ A.finishes ∧
        Relation.ReflTransGen (Step A w) (A.start, 0) (q, w.length)) ∧
      simulateRun A w = some (simulateNFA A w) :=
  ⟨simulateNFA_iff A w, simulateRun_eq A w⟩

/-- C4: the batch query is a per-word predicate.  For every expression `r` and list
of words `ws`, the index `i` is in `wordsMatch r ws` exactly when `i` is an index of
`ws` and the compiled automaton accepts `ws[i]`; equivalently, exactly when `0` is in
`wordsMatch r [ws[i]]`.  The answer for a word depends neither on the other words
nor on its position. -/
theorem C4_wordsMatch_per_word (r : RegExp) (ws : List Word) (i : Nat) :
    (i ∈ wordsMatch r ws ↔
      ∃ w, ws[i]? = some w ∧ simulateNFA (epsilonRemover (buildNFA r 0)) w = true) ∧
    (i ∈ wordsMatch r ws ↔ ∃ w, ws[i]? = some w ∧ 0 ∈ wordsMatch r [w]) := by
  refine ⟨mem_wordsMatch r ws i, ?_⟩
  rw [mem_wordsMatch]
  constructor
  · rintro ⟨w, hw, h⟩
    exact ⟨w, hw, (mem_wordsMatch r [w] 0).2 ⟨w, rfl, h⟩⟩
  · rintro ⟨w, hw, h⟩
    obtain ⟨w2, hw2, h2⟩ := (mem_wordsMatch r [w] 0).1 h
    simp only [List.getElem?_cons_zero, Option.some.injEq] at hw2
    subst hw2
    exact ⟨w, hw, h2⟩

/-- C5: alternation is union of acceptance on the raw Thompson automaton.  For all
expressions `L` and `R`, every word `w` and every starting counter `n`, the
simulator accepts `w` on `buildNFA (Alternation L R) n` exactly when it accepts `w`
on `buildNFA L n` or on `buildNFA R n`. -/
theorem C5_alternation_union (L R : RegExp) (w : Word) (n : Nat) :
    simulateNFA (buildNFA (.Alternation L R) n) w =
      (simulateNFA (buildNFA L n) w || simulateNFA (buildNFA R n) w) := by
  rw [Bool.eq_iff_iff, Bool.or_eq_true, simulateNFA_buildNFA, simulateNFA_buildNFA,
    simulateNFA_buildNFA]
  exact Language.mem_add _ _ _

/-- C6: concatenation is acceptance at some split point.  For all expressions `L`
and `R`, every word `w` and every starting counter `n`, the simulator accepts `w` on
`buildNFA (Concatenation L R) n` exactly when for some `i ≤ w.length` it accepts
`w.take i` on `buildNFA L n` and `w.drop i` on `buildNFA R n`. -/
theorem C6_concatenation_split (L R : RegExp) (w : Word) (n : Nat) :
    simulateNFA (buildNFA (.Concatenation L R) n) w = true ↔
      ∃ i, i ≤ w.length ∧ simulateNFA (buildNFA L n) (w.take i) = true ∧
        simulateNFA (buildNFA R n) (w.drop i) = true := by
  simp only [simulateNFA_buildNFA]
  show w ∈ lang L * lang R ↔ _
  rw [Language.mem_mul]
  constructor
  · rintro ⟨a, ha, b, hb, rfl⟩
    refine ⟨a.length, by simp, ?_, ?_⟩
    · rw [List.take_left]
      exact ha
    · rw [List.drop_left]
      exact hb
  · rintro ⟨i, -, h1, h2⟩
    exact ⟨_, h1, _, h2, List.take_append_drop i w⟩

/-- C7: iteration is Kleene star.  For every expression `N`, every word `w` and
every starting counter `n`, the simulator accepts `w` on `buildNFA (Iteration N) n`
exactly when `w` is empty or `w` is the concatenation of one or more non-empty
pieces, each accepted on `buildNFA N n`. -/
theorem C7_iteration_star (N : RegExp) (w : Word) (n : Nat) :
    simulateNFA (buildNFA (.Iteration N) n) w = true ↔
      w = [] ∨ ∃ ps : List Word, ps ≠ [] ∧ w = ps.flatten ∧
        ∀ p, p ∈ ps → p ≠ [] ∧ simulateNFA (buildNFA N n) p = true := by
  simp only [simulateNFA_buildNFA]
  show w ∈ KStar.kstar (lang N) ↔ _
  rw [Language.mem_kstar_iff_exists_nonempty]
  constructor
  · rintro ⟨S, hS, hall⟩
    cases S with
    | nil => exact Or.inl hS
    | cons p S =>
      exact Or.inr ⟨p :: S, List.cons_ne_nil _ _, hS, fun y hy => ⟨(hall y hy).2, (hall y hy).1⟩⟩
  · rintro (rfl | ⟨ps, -, hw, hall⟩)
    · exact ⟨[], rfl, fun y hy => absurd hy (List.not_mem_nil _)⟩
    · exact ⟨ps, hw, fun y hy => ⟨(hall y hy).2, (hall y hy).1⟩⟩

/-- C8: a single-symbol expression matches exactly the one-symbol word.  For every
byte `c` and every word `w`, the compiled automaton of `Symbol c` accepts `w`
exactly when `w = [c]`; in particular `Symbol 'h'` matches `['h']` and does not match
`['x']`. -/
theorem C8_symbol_matches_itself (c : Fin 256) (w : Word) :
    (simulateNFA (epsilonRemover (buildNFA (.Symbol c) 0)) w = true ↔ w = [c]) ∧
      simulateNFA (epsilonRemover (buildNFA (.Symbol 104) 0)) [104] = true ∧
      simulateNFA (epsilonRemover (buildNFA (.Symbol 104) 0)) [120] = false := by
  refine ⟨?_, by decide, by decide⟩
  rw [simulateNFA_pipeline]
  exact Set.mem_singleton_iff

/-- C9: the `Epsilon` expression matches exactly the empty word.  For every word
`w`, the compiled automaton of `Epsilon` accepts `w` exactly when `w` is empty. -/
theorem C9_epsilon_matches_empty_word (w : Word) :
    simulateNFA (epsilonRemover (buildNFA .Epsilon 0)) w = true ↔ w = [] := by
  rw [simulateNFA_pipeline]
  exact Language.mem_one w

/-- C10: the `Empty` expression matches no word.  For every word `w`, the empty word
included, the compiled automaton of `Empty` rejects `w`. -/
theorem C10_empty_matches_nothing (w : Word) :
    simulateNFA (epsilonRemover (buildNFA .Empty 0)) w = false := by
  rw [Bool.eq_false_iff, Ne, simulateNFA_pipeline]
  exact Language.not_mem_zero w

/-! ## Stored transitions -/

/-- A fold keeps what each of its steps keeps. -/
theorem foldl_inv {α β : Type} (P : β → Prop) (f : β → α → β)
    (hf : ∀ r a, P r → P (f r a)) (l : List α) (r : β) (h : P r) : P (l.foldl f r) := by
  induction l generalizing r with
  | nil => exact h
  | cons a l ih => exact ih _ (hf r a h)

theorem mapFind_of_mem (m : TransMap) (h : (m.map Prod.fst).Nodup) (k : Nat)
    (v : List Transition) (hm : (k, v) ∈ m) : mapFind m k = some v := by
  induction m with
  | nil => exact absurd hm (List.not_mem_nil _)
  | cons kv m ih =>
    obtain ⟨k2, v2⟩ := kv
    rw [List.map_cons, List.nodup_cons] at h
    rcases List.mem_cons.1 hm with heq | hm
    · cases heq
      simp [mapFind]
    · have hne : ¬ k2 = k := by
        rintro rfl
        exact h.1 (List.mem_map.2 ⟨(k2, v), hm, rfl⟩)
      simp only [mapFind, hne, if_false]
      exact ih h.2 hm

/-- In a table without repeated keys every stored transition is found. -/
theorem edge_of_mem (m : TransMap) (h : (m.map Prod.fst).Nodup) (k : Nat)
    (v : List Transition) (tr : Transition) (hm : (k, v) ∈ m) (htr : tr ∈ v) : Edge m k tr :=
  ⟨v, mapFind_of_mem m h k v hm, htr⟩

theorem mem_targetList (m : TransMap) (x : Nat) :
    x ∈ targetList m ↔ ∃ k v tr, (k, v) ∈ m ∧ tr ∈ v ∧ tr.to_ = x := by
  induction m with
  | nil => simp [targetList]
  | cons kv m ih =>
    obtain ⟨k2, v2⟩ := kv
    simp only [targetList, List.mem_append, List.mem_map, ih, List.mem_cons]
    constructor
    · rintro (⟨tr, htr, rfl⟩ | ⟨k, v, tr, hm, htr, rfl⟩)
      · exact ⟨k2, v2, tr, Or.inl rfl, htr, rfl⟩
      · exact ⟨k, v, tr, Or.inr hm, htr, rfl⟩
    · rintro ⟨k, v, tr, hm | hm, htr, rfl⟩
      · cases hm
        exact Or.inl ⟨tr, htr, rfl⟩
      · exact Or.inr ⟨k, v, tr, hm, htr, rfl⟩

theorem nodup_copySymbolTransitions (state : Nat) (result : NFA) (trs : List Transition)
    (h : (result.transitions.map Prod.fst).Nodup) :
    ((copySymbolTransitions state result trs).transitions.map Prod.fst).Nodup := by
  unfold copySymbolTransitions
  refine foldl_inv (fun r : NFA => (r.transitions.map Prod.fst).Nodup) _ ?_ trs result h
  intro r a hr
  dsimp only
  split_ifs
  · exact nodup_mapAppend _ _ _ hr
  · exact hr

theorem nodup_hoistMember (nfa : NFA) (state : Nat) (result : NFA) (c : Nat)
    (h : (result.transitions.map Prod.fst).Nodup) :
    ((hoistMember nfa state result c).transitions.map Prod.fst).Nodup := by
  have h0 : (hoistMember nfa state result c).transitions =
      (match mapFind nfa.transitions c with
        | some trs => copySymbolTransitions state result trs
        | none => result).transitions := by
    unfold hoistMember
    split_ifs <;> rfl
  rw [h0]
  split
  · exact nodup_copySymbolTransitions _ _ _ h
  · exact h

theorem nodup_hoistClosures (nfa : NFA) (cls : List (Nat × List Nat)) (result : NFA)
    (h : (result.transitions.map Prod.fst).Nodup) :
    ((hoistClosures nfa cls result).transitions.map Prod.fst).Nodup := by
  unfold hoistClosures
  refine foldl_inv (fun r : NFA => (r.transitions.map Prod.fst).Nodup) _ ?_ cls result h
  intro r sc hr
  exact foldl_inv (fun r : NFA => (r.transitions.map Prod.fst).Nodup) _
    (fun r2 c h2 => nodup_hoistMember nfa sc.1 r2 c h2) sc.2 r hr

/-- The table of `epsilonRemover nfa` stores no key twice. -/
theorem nodup_epsilonRemover (nfa : NFA) :
    ((epsilonRemover nfa).transitions.map Prod.fst).Nodup := by
  unfold epsilonRemover
  rw [keepFinishes_transitions]
  exact nodup_hoistClosures nfa _ _ List.nodup_nil

/-- No transition stored by `epsilonRemover nfa` is an epsilon transition. -/
theorem epsilonRemover_stored (nfa : NFA) (k : Nat) (v : List Transition) (tr : Transition)
    (hm : (k, v) ∈ (epsilonRemover nfa).transitions) (htr : tr ∈ v) : tr.symbol ≠ -1 :=
  ((epsilonRemover_edge nfa k tr).1
    (edge_of_mem _ (nodup_epsilonRemover nfa) k v tr hm htr)).1

/-! ## State identifiers of the built fragments -/

theorem mem_keys_mapAppend (m : TransMap) (k : Nat) (v : List Transition) (x : Nat) :
    x ∈ (mapAppend m k v).map Prod.fst ↔ x ∈ m.map Prod.fst ∨ x = k := by
  rw [keys_mapAppend]
  split_ifs with h
  · constructor
    · exact Or.inl
    · rintro (h2 | rfl)
      · exact h2
      · exact h
  · simp

theorem mem_keys_mergeTransitions (dst src : TransMap) (x : Nat) :
    x ∈ (mergeTransitions dst src).map Prod.fst ↔
      x ∈ dst.map Prod.fst ∨ x ∈ src.map Prod.fst := by
  unfold mergeTransitions
  induction src generalizing dst with
  | nil => simp
  | cons kv src ih =>
    rw [List.foldl_cons, ih, mem_keys_mapAppend, List.map_cons, List.mem_cons]
    tauto

theorem buildNFA_keysIn (r : RegExp) :
    ∀ n, KeysIn (buildNFA r n).transitions n (setBegin (buildNFA r n).finishes) := by
  induction r with
  | Symbol c =>
    intro n k hk
    simp only [buildNFA, buildSymbol, setInsert_nil, setBegin_singleton, mapPushBack,
      mapAppend, List.map_cons, List.map_nil, List.mem_singleton] at hk ⊢
    omega
  | Epsilon =>
    intro n k hk
    simp only [buildNFA, buildEpsilon, setInsert_nil, setBegin_singleton, mapPushBack,
      mapAppend, List.map_cons, List.map_nil, List.mem_singleton] at hk ⊢
    omega
  | Empty =>
    intro n k hk
    simp [buildNFA, buildEmpty] at hk
  | Alternation l r ihl ihr =>
    intro n k hk
    have hL := buildNFA_fragOK l n
    have hR := buildNFA_fragOK r (setBegin (buildNFA l n).finishes)
    have hf := (buildAlternation_fragOK n _ _ _ _ hL hR).1
    have hl := ihl n
    have hr := ihr (setBegin (buildNFA l n).finishes)
    simp only [buildNFA] at hk ⊢
    rw [hf, setBegin_singleton]
    simp only [buildAlternation, mapPushBack, mem_keys_mapAppend,
      mem_keys_mergeTransitions, setInsert_nil, setBegin_singleton] at hk
    have h1 := hL.2.1
    have h2 := hL.2.2.1
    have h3 := hR.2.1
    have h4 := hR.2.2.1
    rcases hk with (((hk | hk) | hk) | hk) | hk
    · rcases hk with hk | hk
      · have := hl k hk
        omega
      · have := hr k hk
        omega
    all_goals omega
  | Concatenation l r ihl ihr =>
    intro n k hk
    have hL := buildNFA_fragOK l n
    have hR := buildNFA_fragOK r (setBegin (buildNFA l n).finishes)
    have hf := (buildConcatenation_fragOK n _ _ _ _ hL hR).1
    have hl := ihl n
    have hr := ihr (setBegin (buildNFA l n).finishes)
    simp only [buildNFA] at hk ⊢
    rw [hf, setBegin_singleton]
    simp only [buildConcatenation, mapPushBack, mem_keys_mapAppend,
      mem_keys_mergeTransitions] at hk
    have h1 := hL.2.1
    have h2 := hL.2.2.1
    have h3 := hR.2.1
    have h4 := hR.2.2.1
    rcases hk with (hk | hk) | hk
    · have := hl k hk
      omega
    · have := hr k hk
      omega
    · omega
  | Iteration r ih =>
    intro n k hk
    have hN := buildNFA_fragOK r n
    have hf := (buildIteration_fragOK n _ _ hN).1
    have hn := ih n
    simp only [buildNFA] at hk ⊢
    rw [hf, setBegin_singleton]
    simp only [buildIteration, mapPushBack, mem_keys_mapAppend,
      mem_keys_mergeTransitions, setInsert_nil, setBegin_singleton] at hk
    have h1 := hN.2.1
    have h2 := hN.2.2.1
    rcases hk with (((hk | hk) | hk) | hk) | hk
    · rcases hk with hk | hk
      · simp at hk
      · have := hn k hk
        omega
    all_goals omega

/-- Every state identifier of the fragment `buildNFA r n` lies in the range
`n + 1 .. e`, where `e` is the fragment's exit. -/
theorem buildNFA_stateIds (r : RegExp) (n x : Nat) (hx : x ∈ stateIds (buildNFA r n)) :
    n < x ∧ x ≤ setBegin (buildNFA r n).finishes := by
  obtain ⟨hf, hs, he, hedge, hnd⟩ := buildNFA_fragOK r n
  simp only [stateIds, List.mem_cons, List.mem_append] at hx
  rcases hx with rfl | hx | hx | hx
  · exact ⟨hs, he⟩
  · rw [hf, List.mem_singleton] at hx
    subst hx
    exact ⟨lt_of_lt_of_le hs he, le_refl _⟩
  · exact buildNFA_keysIn r n x hx
  · obtain ⟨k, v, tr, hm, htr, rfl⟩ := (mem_targetList _ x).1 hx
    exact (hedge k tr (edge_of_mem _ hnd k v tr hm htr)).2.2

theorem mapAppend_of_not_mem (m : TransMap) (k : Nat) (v : List Transition)
    (h : k ∉ m.map Prod.fst) : mapAppend m k v = m ++ [(k, v)] := by
  induction m with
  | nil => rfl
  | cons kv m ih =>
    obtain ⟨k2, v2⟩ := kv
    simp only [List.map_cons, List.mem_cons, not_or] at h
    have hne : ¬ k2 = k := fun h2 => h.1 h2.symm
    simp only [mapAppend, hne, if_false, ih h.2, List.cons_append]

/-- Merging a table whose keys are new and pairwise different never appends to an
existing vector: the entries are added as they are. -/
theorem mergeTransitions_of_disjoint (dst src : TransMap) (hnd : (src.map Prod.fst).Nodup)
    (hdis : ∀ k, k ∈ src.map Prod.fst → k ∉ dst.map Prod.fst) :
    mergeTransitions dst src = dst ++ src := by
  unfold mergeTransitions
  induction src generalizing dst with
  | nil => simp
  | cons kv src ih =>
    obtain ⟨k, v⟩ := kv
    rw [List.map_cons, List.nodup_cons] at hnd
    rw [List.foldl_cons, mapAppend_of_not_mem dst k v (hdis k (by simp)), ih _ hnd.2]
    · simp
    · intro k2 hk2
      simp only [List.map_append, List.map_cons, List.map_nil, List.mem_append,
        List.mem_singleton, not_or]
      refine ⟨hdis k2 (by simp [hk2]), ?_⟩
      rintro rfl
      exact hnd.1 hk2

/-! ## Each configuration is expanded once -/

/-- Dropping the log gives back the loop of `simulateNFA`. -/
theorem simulateLoopLog_fst (nfa : NFA) (word : Word) :
    ∀ (fuel : Nat) (s visited log : List (Nat × Nat)),
      (simulateLoopLog nfa word fuel s visited log).1 = simulateLoop nfa word fuel s visited := by
  intro fuel
  induction fuel with
  | zero => intro s visited log; rfl
  | succ fuel ih =>
    intro s visited log
    match s with
    | [] => rfl
    | (state, index) :: s =>
      rw [simulateLoopLog, simulateLoop]
      split_ifs with h1 h2
      · rfl
      · exact ih _ _ _
      · cases mapFind nfa.transitions state with
        | none => exact ih _ _ _
        | some trs => exact ih _ _ _

/-- The log never holds a configuration twice, as long as every logged
configuration is in `visited`. -/
theorem simulateLoopLog_nodup (nfa : NFA) (word : Word) :
    ∀ (fuel : Nat) (s visited log : List (Nat × Nat)),
      log.Nodup → (∀ c, c ∈ log → c ∈ visited) →
      (simulateLoopLog nfa word fuel s visited log).2.Nodup := by
  intro fuel
  induction fuel with
  | zero => intro s visited log h _; exact h
  | succ fuel ih =>
    intro s visited log hnd hsub
    match s with
    | [] => exact hnd
    | (state, index) :: s =>
      have hnd2 : ((state, index) :: log).Nodup ∨ (state, index) ∈ visited := by
        by_cases h : (state, index) ∈ visited
        · exact Or.inr h
        · exact Or.inl (List.nodup_cons.2 ⟨fun hm => h (hsub _ hm), hnd⟩)
      have hsub2 : ∀ c, c ∈ (state, index) :: log → c ∈ (state, index) :: visited := by
        intro c hc
        rcases List.mem_cons.1 hc with rfl | hc
        · exact List.mem_cons_self _ _
        · exact List.mem_cons_of_mem _ (hsub c hc)
      rw [simulateLoopLog]
      split_ifs with h1 h2
      · exact hnd
      · exact ih _ _ _ hnd hsub
      · have hnd3 : ((state, index) :: log).Nodup := by
          rcases hnd2 with h | h
          · exact h
          · exact absurd h h2
        split
        · exact ih _ _ _ hnd3 hsub2
        · exact ih _ _ _ hnd3 hsub2

/-! ## Symbols outside the alphabet -/

theorem mem_symbols_of_mem_lang (r : RegExp) :
    ∀ w : Word, w ∈ lang r → ∀ c, c ∈ w → c ∈ symbols r := by
  induction r with
  | Symbol a =>
    intro w hw c hc
    have h : w = [a] := hw
    rw [h] at hc
    exact hc
  | Epsilon =>
    intro w hw c hc
    have h : w = [] := (Language.mem_one w).1 hw
    rw [h] at hc
    exact absurd hc (List.not_mem_nil _)
  | Empty =>
    intro w hw
    exact absurd hw (Language.not_mem_zero w)
  | Alternation l r ihl ihr =>
    intro w hw c hc
    rcases (Language.mem_add _ _ _).1 hw with h | h
    · exact List.mem_append.2 (Or.inl (ihl w h c hc))
    · exact List.mem_append.2 (Or.inr (ihr w h c hc))
  | Concatenation l r ihl ihr =>
    intro w hw c hc
    obtain ⟨u, hu, v, hv, rfl⟩ := Language.mem_mul.1 hw
    rcases List.mem_append.1 hc with h | h
    · exact List.mem_append.2 (Or.inl (ihl u hu c h))
    · exact List.mem_append.2 (Or.inr (ihr v hv c h))
  | Iteration r ih =>
    intro w hw c hc
    obtain ⟨L, rfl, hall⟩ := Language.mem_kstar.1 hw
    obtain ⟨y, hy, hcy⟩ := List.mem_flatten.1 hc
    exact ih y (hall y hy) c hcy

/-! ## The language of the test expression `re1` -/

theorem re1_eq : re1 = .Iteration scenario2 := rfl

theorem mem_kstar_ab (w : Word) :
    w ∈ KStar.kstar (lang (.Alternation (.Symbol 97) (.Symbol 98))) ↔
      ∀ c, c ∈ w → c = 97 ∨ c = 98 := by
  rw [Language.mem_kstar]
  constructor
  · rintro ⟨L, rfl, hall⟩ c hc
    obtain ⟨y, hy, hcy⟩ := List.mem_flatten.1 hc
    rcases (Language.mem_add _ _ _).1 (hall y hy) with h | h
    · have h2 : y = [97] := h
      rw [h2, List.mem_singleton] at hcy
      exact Or.inl hcy
    · have h2 : y = [98] := h
      rw [h2, List.mem_singleton] at hcy
      exact Or.inr hcy
  · intro h
    refine ⟨w.map fun c => [c], ?_, ?_⟩
    · clear h
      induction w with
      | nil => rfl
      | cons c w ih => rw [List.map_cons, List.flatten_cons, ← ih]; rfl
    · intro y hy
      obtain ⟨c, hc, rfl⟩ := List.mem_map.1 hy
      rcases h c hc with rfl | rfl
      · exact (Language.mem_add _ _ _).2 (Or.inl rfl)
      · exact (Language.mem_add _ _ _).2 (Or.inr rfl)

theorem mem_lang_scenario2 (w : Word) :
    w ∈ lang scenario2 ↔
      (∀ c, c ∈ w → c = 97 ∨ c = 98) ∧ ∃ x y : Word, w = x ++ [97, 98] ++ y := by
  show w ∈ ((KStar.kstar (lang (.Alternation (.Symbol 97) (.Symbol 98))) * lang (.Symbol 97)) *
    lang (.Symbol 98)) * KStar.kstar (lang (.Alternation (.Symbol 97) (.Symbol 98))) ↔ _
  constructor
  · intro h
    obtain ⟨u, hu, y, hy, rfl⟩ := Language.mem_mul.1 h
    obtain ⟨u2, hu2, v, hv, rfl⟩ := Language.mem_mul.1 hu
    obtain ⟨x, hx, v2, hv2, rfl⟩ := Language.mem_mul.1 hu2
    have h1 : v = [98] := hv
    have h2 : v2 = [97] := hv2
    subst h1 h2
    rw [mem_kstar_ab] at hx hy
    refine ⟨?_, x, y, by simp⟩
    intro c hc
    simp only [List.mem_append, List.mem_singleton] at hc
    rcases hc with ((hc | hc) | hc) | hc
    · exact hx c hc
    · exact Or.inl hc
    · exact Or.inr hc
    · exact hy c hc
  · rintro ⟨hall, x, y, rfl⟩
    have hx : x ∈ KStar.kstar (lang (.Alternation (.Symbol 97) (.Symbol 98))) :=
      (mem_kstar_ab x).2 fun c hc => hall c (by simp [hc])
    have hy : y ∈ KStar.kstar (lang (.Alternation (.Symbol 97) (.Symbol 98))) :=
      (mem_kstar_ab y).2 fun c hc => hall c (by simp [hc])
    refine Language.mem_mul.2 ⟨(x ++ [97]) ++ [98], ?_, y, hy, by simp⟩
    refine Language.mem_mul.2 ⟨x ++ [97], ?_, [98], rfl, rfl⟩
    exact Language.mem_mul.2 ⟨x, hx, [97], rfl, rfl⟩

/-- The language of `re1`: the empty word and the words over `a`, `b` that contain
an `a` immediately followed by a `b`. -/
theorem mem_lang_re1 (w : Word) :
    w ∈ lang re1 ↔
      w = [] ∨ ((∀ c, c ∈ w → c = 97 ∨ c = 98) ∧ ∃ x y : Word, w = x ++ [97, 98] ++ y) := by
  show w ∈ KStar.kstar (lang scenario2) ↔ _
  rw [Language.mem_kstar]
  constructor
  · rintro ⟨L, rfl, hall⟩
    induction L with
    | nil => exact Or.inl rfl
    | cons p L ih =>
      right
      obtain ⟨hp, x, y, rfl⟩ := (mem_lang_scenario2 p).1 (hall p (List.mem_cons_self _ _))
      have hrest := ih fun z hz => hall z (List.mem_cons_of_mem _ hz)
      rw [List.flatten_cons]
      refine ⟨?_, x, y ++ L.flatten, by simp⟩
      intro c hc
      rcases List.mem_append.1 hc with hc | hc
      · exact hp c hc
      · rcases hrest with h0 | ⟨h1, -⟩
        · rw [h0] at hc
          exact absurd hc (List.not_mem_nil _)
        · exact h1 c hc
  · rintro (rfl | h)
    · exact ⟨[], rfl, fun y hy => absurd hy (List.not_mem_nil _)⟩
    · refine ⟨[w], by simp, ?_⟩
      intro y hy
      rw [List.mem_singleton] at hy
      subst hy
      exact (mem_lang_scenario2 y).2 h

/-- The one-word query answers `[0]` on an accepted word and `[]` otherwise. -/
theorem wordsMatch_singleton (r : RegExp) (w : Word) :
    wordsMatch r [w] =
      if simulateNFA (epsilonRemover (buildNFA r 0)) w = true then [0] else [] := by
  have hr : List.range ([w] : List Word).length = [0] := rfl
  have hg : ([w] : List Word).getD 0 [] = w := rfl
  rw [wordsMatch_eq_filter, hr]
  simp only [List.filter_cons, List.filter_nil, hg]

/-! ## Further properties stated by the specification -/

/-- C11: the eliminator's output is epsilon-free.  For every automaton `A`, no
transition stored in the table of `epsilonRemover A` carries the epsilon sentinel
`-1`: every stored transition is labelled with a symbol. -/
theorem C11_epsilonRemover_epsilon_free (A : NFA) :
    ¬ ∃ k v tr, (k, v) ∈ (epsilonRemover A).transitions ∧ tr ∈ v ∧ tr.symbol = -1 := by
  rintro ⟨k, v, tr, hm, htr, hs⟩
  exact epsilonRemover_stored A k v tr hm htr hs

/-- C12, as stated, fails: on scenario 2's expression `(a+b)* a b (a+b)*` the batch
query over the eight words does not return the index set `{0, 1, 6, 7}`, because the
empty word at index 0 is not matched. -/
theorem C12_counterexample :
    ¬ ∀ i, i ∈ wordsMatch scenario2 words1 ↔ i ∈ [0, 1, 6, 7] := by
  intro h
  have h0 : 0 ∉ wordsMatch scenario2 words1 := by decide
  exact h0 ((h 0).2 (by decide))

/-- C12, amended: on scenario 2's expression `(a+b)* a b (a+b)*` the batch query
over the eight words returns exactly `{1, 6, 7}`; the index set `{0, 1, 6, 7}` is
what the test's `re1`, the `Iteration` of that expression, returns. -/
theorem C12_batch_scenario2 :
    wordsMatch scenario2 words1 = [1, 6, 7] ∧ wordsMatch re1 words1 = [0, 1, 6, 7] ∧
      re1 = .Iteration scenario2 :=
  ⟨by decide, by decide, rfl⟩

/-- C13: for the test expression `re1 = ((a+b)* a b (a+b)*)*` and every word `w`,
`wordsMatch re1 [w]` is `{0}` exactly when `w` is empty or `w` consists only of the
symbols `a` and `b` and contains an `a` immediately followed by a `b`; otherwise it
is the empty set.  The words of the test: `[]`, `ab` and `aab` match, `a`, `aaaa`,
`aaac` and `aa\x07c` do not, and the batch of eight returns `{0, 1, 6, 7}`. -/
theorem C13_re1_language (w : Word) :
    (wordsMatch re1 [w] = [0] ↔
      w = [] ∨ ((∀ c, c ∈ w → c = 97 ∨ c = 98) ∧ ∃ x y : Word, w = x ++ [97, 98] ++ y)) ∧
    (wordsMatch re1 [w] = [] ↔
      ¬ (w = [] ∨
        ((∀ c, c ∈ w → c = 97 ∨ c = 98) ∧ ∃ x y : Word, w = x ++ [97, 98] ++ y))) ∧
    wordsMatch re1 [[]] = [0] ∧ wordsMatch re1 [[97, 98]] = [0] ∧
    wordsMatch re1 [[97]] = [] ∧ wordsMatch re1 [[97, 97, 97, 97]] = [] ∧
    wordsMatch re1 [[97, 97, 97, 99]] = [] ∧ wordsMatch re1 [[97, 97, 7, 99]] = [] ∧
    wordsMatch re1 [[97, 97, 98]] = [0] ∧ wordsMatch re1 words1 = [0, 1, 6, 7] := by
  refine ⟨?_, ?_, by decide, by decide, by decide, by decide, by decide, by decide,
    by decide, by decide⟩
  · rw [wordsMatch_singleton, ← mem_lang_re1, ← simulateNFA_pipeline re1 0 w]
    split_ifs with h
    · exact ⟨fun _ => h, fun _ => rfl⟩
    · exact ⟨fun h2 => (by cases h2), fun h2 => absurd h2 h⟩
  · rw [wordsMatch_singleton, ← mem_lang_re1, ← simulateNFA_pipeline re1 0 w]
    split_ifs with h
    · exact ⟨fun h2 => (by cases h2), fun h2 => absurd h h2⟩
    · exact ⟨fun _ => h, fun _ => rfl⟩

/-- C14: scenario 3.  For `re3 = 0 1 1 ((0 1 1) + (1 0* 1) + 0)*` the batch query over
the six words `01`, `011`, `0110`, `0110111000`, `0110111001`, `01101110010` returns
exactly `{1, 2, 4, 5}`: `01` and `0110111000` are not matched, the other four are. -/
theorem C14_scenario3 :
    wordsMatch re3 words3 = [1, 2, 4, 5] ∧
    wordsMatch re3 [[48, 49]] = [] ∧ wordsMatch re3 [[48, 49, 49]] = [0] ∧
    wordsMatch re3 [[48, 49, 49, 48]] = [0] ∧
    wordsMatch re3 [[48, 49, 49, 48, 49, 49, 49, 48, 48, 48]] = [] ∧
    wordsMatch re3 [[48, 49, 49, 48, 49, 49, 49, 48, 48, 49]] = [0] ∧
    wordsMatch re3 [[48, 49, 49, 48, 49, 49, 49, 48, 48, 49, 48]] = [0] :=
  ⟨by decide, by decide, by decide, by decide, by decide, by decide, by decide⟩

/-- C15: a concatenation through `Empty` matches nothing.  For all expressions `X`
and `Y` and every list of words `ws`, `wordsMatch` of
`Concatenation (Concatenation X Empty) Y` over `ws` is the empty set; the test's `re2`
is such an expression and its batch of five words returns the empty set. -/
theorem C15_concatenation_through_empty (X Y : RegExp) (ws : List Word) :
    wordsMatch (.Concatenation (.Concatenation X .Empty) Y) ws = [] ∧
      wordsMatch re2 words2 = [] := by
  have key : ∀ (X Y : RegExp) (ws : List Word),
      wordsMatch (.Concatenation (.Concatenation X .Empty) Y) ws = [] := by
    intro X Y ws
    rw [List.eq_nil_iff_forall_not_mem]
    intro i hi
    obtain ⟨w, -, hw⟩ := (mem_wordsMatch _ ws i).1 hi
    rw [simulateNFA_pipeline] at hw
    obtain ⟨u, hu, v, -, -⟩ := Language.mem_mul.1 (show w ∈ (lang X * 0) * lang Y from hw)
    obtain ⟨u1, -, u2, hu2, -⟩ := Language.mem_mul.1 hu
    exact Language.not_mem_zero u2 hu2
  exact ⟨key X Y ws, key _ _ words2⟩

/-- C16: a word containing a symbol outside the expression's alphabet is never
matched.  For every expression `r` and every word `w`, if some byte of `w` is no
`Symbol` leaf of `r`, the compiled automaton rejects `w`. -/
theorem C16_foreign_symbol_rejected (r : RegExp) (w : Word)
    (h : ∃ c, c ∈ w ∧ c ∉ symbols r) :
    simulateNFA (epsilonRemover (buildNFA r 0)) w = false := by
  obtain ⟨c, hc, hnot⟩ := h
  rw [Bool.eq_false_iff, Ne, simulateNFA_pipeline]
  intro hw
  exact hnot (mem_symbols_of_mem_lang r w hw c hc)

/-- C16 at the words of the test: `aaac` and `aa\x07c` hold the bytes `c` and `0x07`,
which are no leaves of `re1`, and are rejected. -/
theorem C16_foreign_symbol_rejected_witness :
    ((∃ c, c ∈ ([97, 97, 97, 99] : Word) ∧ c ∉ symbols re1) ∧
      simulateNFA (epsilonRemover (buildNFA re1 0)) [97, 97, 97, 99] = false) ∧
    ((∃ c, c ∈ ([97, 97, 7, 99] : Word) ∧ c ∉ symbols re1) ∧
      simulateNFA (epsilonRemover (buildNFA re1 0)) [97, 97, 7, 99] = false) :=
  ⟨⟨⟨99, by decide, by decide⟩,
      C16_foreign_symbol_rejected re1 [97, 97, 97, 99] ⟨99, by decide, by decide⟩⟩,
    ⟨⟨7, by decide, by decide⟩,
      C16_foreign_symbol_rejected re1 [97, 97, 7, 99] ⟨7, by decide, by decide⟩⟩⟩

/-- C17: the simulator terminates on every input.  For every automaton `A`, epsilon
cycles and symbol cycles included, and every word `w`, the work-stack loop of
`simulateNFA` ends within its budget with an answer, and no configuration
(state, position) is expanded twice during the run. -/
theorem C17_simulator_terminates (A : NFA) (w : Word) :
    simulateRun A w = some (simulateNFA A w) ∧
    (simulateLoopLog A w (simulateFuel A w) [(A.start, 0)] [] []).1 = simulateRun A w ∧
    (simulateLoopLog A w (simulateFuel A w) [(A.start, 0)] [] []).2.Nodup :=
  ⟨simulateRun_eq A w, simulateLoopLog_fst A w _ _ _ _,
    simulateLoopLog_nodup A w _ _ _ _ List.nodup_nil fun _ hc => absurd hc (List.not_mem_nil _)⟩

/-- C18: builder state ids are fresh.  For every expression `r` and every starting
counter `n`, in `buildNFA r n` the start state, the exit state, and the source and
the target of every stored transition are strictly greater than `n`. -/
theorem C18_fresh_ids (r : RegExp) (n : Nat) :
    n < (buildNFA r n).start ∧ n < setBegin (buildNFA r n).finishes ∧
    (∀ e, e ∈ (buildNFA r n).finishes → n < e) ∧
    ∀ kv, kv ∈ (buildNFA r n).transitions → n < kv.1 ∧ ∀ tr, tr ∈ kv.2 → n < tr.to_ := by
  have hall : ∀ x, x ∈ stateIds (buildNFA r n) → n < x :=
    fun x hx => (buildNFA_stateIds r n x hx).1
  have hf := buildNFA_finishes r n
  refine ⟨hall _ (by simp [stateIds]), ?_, ?_, ?_⟩
  · refine hall _ ?_
    simp only [stateIds, List.mem_cons, List.mem_append]
    right; left
    rw [hf]
    exact List.mem_singleton.2 (by rw [setBegin_singleton])
  · intro e he
    exact hall e (by simp [stateIds, he])
  · rintro ⟨k, v⟩ hkv
    refine ⟨hall k ?_, fun tr htr => hall _ ?_⟩
    · simp only [stateIds, List.mem_cons, List.mem_append]
      right; right; left
      exact List.mem_map.2 ⟨(k, v), hkv, rfl⟩
    · simp only [stateIds, List.mem_cons, List.mem_append]
      right; right; right
      exact (mem_targetList _ _).2 ⟨k, v, tr, hkv, htr, rfl⟩

/-- C19: sub-fragments never share state ids.  For all expressions `L` and `R` and
every starting counter `n`, with `fl = buildNFA L n` and
`fr = buildNFA R (exit of fl)` as built in the Alternation and Concatenation cases,
no state id occurring in `fl` occurs in `fr`; in particular the two tables have no
key in common, and merging them appends to no existing vector: the merged table is
the entries of `fl` followed by the entries of `fr`. -/
theorem C19_subfragments_disjoint (L R : RegExp) (n : Nat) :
    List.Disjoint (stateIds (buildNFA L n))
      (stateIds (buildNFA R (setBegin (buildNFA L n).finishes))) ∧
    List.Disjoint ((buildNFA L n).transitions.map Prod.fst)
      ((buildNFA R (setBegin (buildNFA L n).finishes)).transitions.map Prod.fst) ∧
    mergeTransitions (buildNFA L n).transitions
        (buildNFA R (setBegin (buildNFA L n).finishes)).transitions =
      (buildNFA L n).transitions ++
        (buildNFA R (setBegin (buildNFA L n).finishes)).transitions ∧
    buildNFA (.Alternation L R) n =
      buildAlternation (setBegin (buildNFA R (setBegin (buildNFA L n).finishes)).finishes)
        (buildNFA L n) (buildNFA R (setBegin (buildNFA L n).finishes)) ∧
    buildNFA (.Concatenation L R) n =
      buildConcatenation (buildNFA L n) (buildNFA R (setBegin (buildNFA L n).finishes)) := by
  have hkeys : List.Disjoint ((buildNFA L n).transitions.map Prod.fst)
      ((buildNFA R (setBegin (buildNFA L n).finishes)).transitions.map Prod.fst) := by
    intro k h1 h2
    have := (buildNFA_keysIn L n k h1).2
    have := (buildNFA_keysIn R _ k h2).1
    omega
  refine ⟨?_, hkeys, ?_, rfl, rfl⟩
  · intro x h1 h2
    have := (buildNFA_stateIds L n x h1).2
    have := (buildNFA_stateIds R _ x h2).1
    omega
  · exact mergeTransitions_of_disjoint _ _ (buildNFA_fragOK R _).2.2.2.2
      fun k h2 h1 => hkeys h1 h2

/-- C20: every built fragment has exactly one accept state.  For every expression
`r` and every starting counter `n`, the accept set of `buildNFA r n` holds exactly
one state id, the one that `*(finishes).begin()` yields. -/
theorem C20_single_accept_state (r : RegExp) (n : Nat) :
    (buildNFA r n).finishes.length = 1 ∧
      (buildNFA r n).finishes = [setBegin (buildNFA r n).finishes] := by
  have h := buildNFA_finishes r n
  refine ⟨?_, h⟩
  rw [h]
  rfl

/-! ## The closure is an ascending set -/

theorem sorted_ordInsert (s : List Nat) (x : Nat) (h : s.Sorted (· < ·)) :
    (ordInsert s x).Sorted (· < ·) := by
  unfold ordInsert
  split_ifs with hx
  · exact h
  · refine List.Sorted.lt_of_le (h.le_of_lt.orderedInsert x s) ?_
    exact (List.perm_orderedInsert _ x s).nodup_iff.2 (List.nodup_cons.2 ⟨hx, h.nodup⟩)

theorem sorted_epsClosureVisit (qr : List Nat × List Nat) (tr : Transition)
    (h : qr.2.Sorted (· < ·)) : (epsClosureVisit qr tr).2.Sorted (· < ·) := by
  unfold epsClosureVisit
  split_ifs
  · exact sorted_ordInsert _ _ h
  · exact h

theorem sorted_epsClosureLoop (nfa : NFA) :
    ∀ (fuel : Nat) (q result out : List Nat),
      epsClosureLoop nfa fuel q result = some out → result.Sorted (· < ·) →
      out.Sorted (· < ·) := by
  intro fuel
  induction fuel with
  | zero => intro q result out h; simp [epsClosureLoop] at h
  | succ fuel ih =>
    intro q result out h hs
    match q with
    | [] =>
      simp only [epsClosureLoop, Option.some.injEq] at h
      rw [← h]
      exact hs
    | state :: q =>
      rw [epsClosureLoop] at h
      split at h
      · exact ih _ _ _ h hs
      · rename_i trs _
        refine ih _ _ _ h ?_
        exact foldl_inv (fun qr : List Nat × List Nat => qr.2.Sorted (· < ·)) epsClosureVisit
          (fun qr tr hqr => sorted_epsClosureVisit qr tr hqr) trs (q, result) hs

/-- The result of `epsClosure` is strictly ascending, as the iteration over a
`std::set` is: it holds no state twice. -/
theorem sorted_epsClosure (nfa : NFA) (start : Nat) :
    (epsClosure nfa start).Sorted (· < ·) :=
  sorted_epsClosureLoop nfa _ _ _ _ (epsClosureRun_eq nfa start)
    (sorted_ordInsert [] start List.sorted_nil)

/-- C21: `epsClosure` computes exactly the epsilon-reachable set.  For every
automaton `A` and every state `s`, the loop of `epsClosure A s` ends within its
budget, also when `A` has epsilon cycles, and the result holds a state `q` exactly
when `q = s` or `q` is reached from `s` by a path of one or more transitions all
labelled epsilon; it holds no state twice.  On the fragment of `Iteration Epsilon`,
whose states 1 and 2 lie on an epsilon cycle, the closure of state 1 is
`{1, 2, 4}`. -/
theorem C21_epsClosure_reachable_set (A : NFA) (s : Nat) :
    epsClosureRun A s = some (epsClosure A s) ∧
    (∀ q, q ∈ epsClosure A s ↔
      q = s ∨ Relation.TransGen (fun x y => Edge A.transitions x ⟨y, -1⟩) s q) ∧
    (epsClosure A s).Sorted (· < ·) ∧
    epsClosure (buildNFA (.Iteration .Epsilon) 0) 1 = [1, 2, 4] := by
  refine ⟨epsClosureRun_eq A s, fun q => ?_, sorted_epsClosure A s, by decide⟩
  rw [mem_epsClosure]
  exact Relation.reflTransGen_iff_eq_or_transGen

end Thompson
